import Mathlib

/-!
Verification of the transcript-cleaning pipeline of
`Youtube-transcript-metadata-fetcher` (`src/main.py`).

Text is modelled as `List Char`.  Python regular-expression operations are
embedded as explicit character-level scanners that reproduce the behaviour of
the concrete patterns appearing in the source (leftmost, non-overlapping
matching, greedy repetition, `MULTILINE` anchors).  Whitespace and digit
classes are modelled over ASCII, which covers every character class decision
made by the source on the inputs considered here.  Several scanners take an
explicit fuel argument (initialised with the length of the input, which bounds
the number of scanner steps since every step consumes at least one character);
this keeps them structurally recursive so that concrete inputs evaluate inside
the kernel.
-/

/-- Characters matched by Python `\s` / stripped by `str.strip()`, ASCII part. -/
def isPySpace (c : Char) : Bool :=
  c == ' ' || c == '\t' || c == '\n' || c == '\r' || c == '\x0b' || c == '\x0c'

/-- Characters matched by Python `\d`, ASCII part. -/
def isPyDigit (c : Char) : Bool :=
  '0' ≤ c && c ≤ '9'

/-- Characters matched by the regex class `[A-Za-z0-9]` in
`sentence_segment_and_capitalize` (ASCII only, exactly as the pattern). -/
def isAsciiAlnum (c : Char) : Bool :=
  ('A' ≤ c && c ≤ 'Z') || ('a' ≤ c && c ≤ 'z') || ('0' ≤ c && c ≤ '9')

/-- ASCII uppercasing, the effect of Python `str.upper()` on the ASCII
characters this development applies it to. -/
def asciiUpper (c : Char) : Char :=
  if 'a' ≤ c && c ≤ 'z' then Char.ofNat (c.toNat - 32) else c

/-- Sentence-final punctuation of the lookbehind `(?<=[\.\?\!])`. -/
def isSentEnd (c : Char) : Bool :=
  c == '.' || c == '?' || c == '!'

/-- Punctuation class `[,.;:!?]` of the two spacing normalisation regexes. -/
def isPunctCls (c : Char) : Bool :=
  c == ',' || c == '.' || c == ';' || c == ':' || c == '!' || c == '?'

/-- Boolean prefix test on character lists. -/
def isPref : List Char → List Char → Bool
  | [], _ => true
  | _ :: _, [] => false
  | a :: as, b :: bs => (a == b) && isPref as bs

/-- Boolean substring test: does `pat` occur contiguously inside `s`? -/
def containsSub (pat : List Char) : List Char → Bool
  | [] => isPref pat []
  | s@(_ :: rest) => isPref pat s || containsSub pat rest

/-- Python `str.strip()` on the left: drop leading whitespace. -/
def stripLeft (s : List Char) : List Char :=
  s.dropWhile isPySpace

/-- Python `str.strip()` on the right: drop trailing whitespace. -/
def stripRight (s : List Char) : List Char :=
  (s.reverse.dropWhile isPySpace).reverse

/-- Python `str.strip()`: drop leading and trailing whitespace. -/
def pyStrip (s : List Char) : List Char :=
  stripRight (stripLeft s)

/-- Python `str.isdigit()` (ASCII digits): non-empty and all digits. -/
def pyIsDigit (s : List Char) : Bool :=
  !(s.isEmpty) && s.all isPyDigit

/-- Split on a single separator character, keeping empty fields, as
Python `str.split(sep)` for a one-character separator. -/
def splitSep (sep : Char) : List Char → List (List Char)
  | [] => [[]]
  | c :: r =>
    if c == sep then [] :: splitSep sep r
    else
      match splitSep sep r with
      | h :: t => (c :: h) :: t
      | [] => [[c]]

/-- Concatenation shape of `splitSep` on an append: the last field of the
first part glues onto the first field of the second part (used only in
proofs). -/
def glueSplit : List (List Char) → List (List Char) → List (List Char)
  | [], ys => ys
  | [a], [] => [a]
  | [a], h :: t => (a ++ h) :: t
  | a :: b :: t, ys => a :: glueSplit (b :: t) ys

/-- Python `str.splitlines()` restricted to `'\n'` line breaks (the only
break character occurring in the data handled by the source): split on
`'\n'` and drop the trailing empty field produced by a final newline. -/
def splitLinesPy (s : List Char) : List (List Char) :=
  if s.isEmpty then []
  else if s.getLast? == some '\n' then (splitSep '\n' s).dropLast
  else splitSep '\n' s

/-- One space-collapsing pass: every maximal whitespace run becomes a single
space, as `re.sub(r"\s+", " ", text)`. -/
def collapseWs : List Char → List Char
  | [] => []
  | [c] => if isPySpace c then [' '] else [c]
  | c :: d :: r =>
    if isPySpace c then
      if isPySpace d then collapseWs (d :: r) else ' ' :: collapseWs (d :: r)
    else c :: collapseWs (d :: r)

/-- Whitespace normalisation `re.sub(r"\s+", " ", t).strip()` used at the end
of `restore_punctuation_and_case` and twice in `clean_transcript_nlp`. -/
def normWs (s : List Char) : List Char :=
  pyStrip (collapseWs s)

/-- Fuelled scanner for Python `html.unescape`, modelled for the named
entities relevant here (`&amp;` `&lt;` `&gt;` `&quot;`); any other `&` is
left in place, as the standard library does for unknown entities. -/
def htmlUnescapeF : Nat → List Char → List Char
  | 0, s => s
  | _ + 1, [] => []
  | fuel + 1, c :: r =>
    if c == '&' then
      if isPref ("amp;".toList) r then '&' :: htmlUnescapeF fuel (r.drop 4)
      else if isPref ("lt;".toList) r then '<' :: htmlUnescapeF fuel (r.drop 3)
      else if isPref ("gt;".toList) r then '>' :: htmlUnescapeF fuel (r.drop 3)
      else if isPref ("quot;".toList) r then '"' :: htmlUnescapeF fuel (r.drop 5)
      else '&' :: htmlUnescapeF fuel r
    else c :: htmlUnescapeF fuel r

/-- Python `html.unescape` (restricted model, see `htmlUnescapeF`). -/
def htmlUnescape (s : List Char) : List Char :=
  htmlUnescapeF s.length s

/-- Parser state for the timestamp patterns: characters consumed so far and
the remaining input. -/
abbrev PState := Nat × List Char

/-- Consume one literal character. -/
def pLit (c : Char) : PState → Option PState
  | (k, d :: r) => if d == c then some (k + 1, r) else none
  | (_, []) => none

/-- Consume exactly `m` digits (`\d{m}` with a fixed count). -/
def pDigitsN : Nat → PState → Option PState
  | 0, st => some st
  | m + 1, (k, d :: r) => if isPyDigit d then pDigitsN m (k + 1, r) else none
  | _ + 1, (_, []) => none

/-- Consume a maximal whitespace run (`\s*`; the following literal is never
whitespace, so greedy matching is forced to the maximal run). -/
def pWs (st : PState) : PState :=
  (st.1 + (st.2.takeWhile isPySpace).length, st.2.dropWhile isPySpace)

/-- Consume a literal string. -/
def pLits : List Char → PState → Option PState
  | [], st => some st
  | c :: cs, st => (pLit c st).bind (pLits cs)

/-- Consume `\d{1,2}` directly followed by a literal `':'`.  The regex engine
first tries two digits; if the colon then fails it backtracks to one digit. -/
def pD12Colon : PState → Option PState
  | (k, a :: b :: c :: r) =>
    if isPyDigit a && isPyDigit b && (c == ':') then some (k + 3, r)
    else if isPyDigit a && (b == ':') then some (k + 2, c :: r)
    else none
  | (k, a :: b :: r) => if isPyDigit a && (b == ':') then some (k + 2, r) else none
  | (_, _) => none

/-- Head match of `\d{1,2}:\d{2}:\d{2}\.\d{3}\s*-->\s*\d{1,2}:\d{2}:\d{2}\.\d{3}`
(line 176 of the source), returning the number of characters matched. -/
def tsMatch1 (s : List Char) : Option Nat :=
  ((((((((((pD12Colon (0, s)).bind (pDigitsN 2)).bind (pLit ':')).bind
    (pDigitsN 2)).bind (pLit '.')).bind (pDigitsN 3)).map pWs).bind
    (pLits ("-->".toList))).map pWs).bind pD12Colon).bind (fun st =>
    ((((pDigitsN 2 st).bind (pLit ':')).bind (pDigitsN 2)).bind
      (pLit '.')).bind (pDigitsN 3)) |>.map (·.1)

/-- Head match of `\d{1,2}:\d{2}\.\d{3}\s*-->\s*\d{1,2}:\d{2}\.\d{3}`
(line 177 of the source). -/
def tsMatch2 (s : List Char) : Option Nat :=
  ((((((pD12Colon (0, s)).bind (pDigitsN 2)).bind (pLit '.')).bind
    (pDigitsN 3)).map pWs).bind (pLits ("-->".toList))).bind (fun st =>
    (((pD12Colon (pWs st)).bind (pDigitsN 2)).bind (pLit '.')).bind
      (pDigitsN 3)) |>.map (·.1)

/-- Fuelled `re.sub` scanner: at each position try the head matcher; on a
match emit the single replacement character and continue after the match
(leftmost, non-overlapping), otherwise keep the character and advance. -/
def replaceScanF (m : List Char → Option Nat) (repl : Char) :
    Nat → List Char → List Char
  | 0, s => s
  | _ + 1, [] => []
  | fuel + 1, c :: r =>
    match m (c :: r) with
    | some k =>
      if 0 < k then repl :: replaceScanF m repl fuel ((c :: r).drop k)
      else c :: replaceScanF m repl fuel r
    | none => c :: replaceScanF m repl fuel r

/-- Replace every occurrence of the first timestamp pattern with `' '`. -/
def subTs1 (s : List Char) : List Char :=
  replaceScanF tsMatch1 ' ' s.length s

/-- Replace every occurrence of the second timestamp pattern with `' '`. -/
def subTs2 (s : List Char) : List Char :=
  replaceScanF tsMatch2 ' ' s.length s

/-- Index of the last `'\n'` in a list, if any. -/
def lastNlIdx : List Char → Option Nat
  | [] => none
  | c :: r =>
    match lastNlIdx r with
    | some j => some (j + 1)
    | none => if c == '\n' then some 0 else none

/-- Head match of `^\s*\d+\s*$` under `re.MULTILINE`, tried only at a `^`
position (string start or just after `'\n'`).  `\s` also matches `'\n'`, so
the leading run may span lines; the leading `\s*` and the `\d+` are forced
maximal (a digit is not whitespace), and the trailing `\s*` backtracks from
its maximal run to the longest stop where `$` holds (end of string or just
before a `'\n'`).  Returns the number of characters of the match. -/
def digitLineMatch (s : List Char) : Option Nat :=
  let a := s.takeWhile isPySpace
  let afterWs := s.dropWhile isPySpace
  let d := afterWs.takeWhile isPyDigit
  if d.isEmpty then none
  else
    let afterD := afterWs.dropWhile isPyDigit
    let run := afterD.takeWhile isPySpace
    let rest := afterD.dropWhile isPySpace
    if rest.isEmpty then some (a.length + d.length + run.length)
    else
      match lastNlIdx run with
      | some j => some (a.length + d.length + j)
      | none => none

/-- Fuelled scanner for `re.sub(r"^\s*\d+\s*$", "", text, flags=re.MULTILINE)`:
`atLineStart` records whether the current position is a `^` anchor (start of
string or preceded by `'\n'` in the original text). -/
def subDigitLinesF : Nat → Bool → List Char → List Char
  | 0, _, s => s
  | _ + 1, _, [] => []
  | fuel + 1, atLineStart, c :: r =>
    if atLineStart then
      match digitLineMatch (c :: r) with
      | some k =>
        if 0 < k then
          subDigitLinesF fuel ((((c :: r).take k).getLastD ' ') == '\n')
            ((c :: r).drop k)
        else c :: subDigitLinesF fuel (c == '\n') r
      | none => c :: subDigitLinesF fuel (c == '\n') r
    else c :: subDigitLinesF fuel (c == '\n') r

/-- Remove cue-number lines, line 178 of the source. -/
def subDigitLines (s : List Char) : List Char :=
  subDigitLinesF s.length true s

/-- Removal of a leading header line,
`re.sub(r"^\s*WEBVTT[^\n]*\n", "", text, flags=re.IGNORECASE)` (line 174):
the anchored `\s*` is forced to the maximal whitespace prefix, then the
literal `WEBVTT` is compared case-insensitively, then `[^\n]*\n` consumes up
to and including the first newline; without a newline there is no match. -/
def stripHeader (text : List Char) : List Char :=
  let afterWs := text.dropWhile isPySpace
  if ((afterWs.take 6).map asciiUpper) == ("WEBVTT".toList) then
    match (afterWs.drop 6).dropWhile (fun c => !(c == '\n')) with
    | _ :: tailAfterNl => tailAfterNl
    | [] => text
  else text

/-- The artifact stripper `_strip_vtt_srt_artifacts` (source lines 171-180):
empty guard, header removal, the two timestamp substitutions, cue-number
line removal, HTML entity decoding. -/
def strip_vtt_srt_artifacts (text : List Char) : List Char :=
  if text.isEmpty then []
  else htmlUnescape (subDigitLines (subTs2 (subTs1 (stripHeader text))))

/-- Replace newlines by spaces, Python `t.replace("\n", " ")`. -/
def nlToSpace (c : Char) : Char :=
  if c == '\n' then ' ' else c

/-- The segment joiner `_join_segments_for_nlp` (source lines 183-192).
A segment is modelled by its `text` field; a segment with empty text is
skipped, otherwise newlines are flattened to spaces, the text is stripped
and appended (even when stripping left it empty), and the parts are joined
with single spaces. -/
def join_segments_for_nlp (segments : List (List Char)) : List Char :=
  List.intercalate [' ']
    (segments.filterMap (fun t =>
      if t.isEmpty then none else some (pyStrip (t.map nlToSpace))))

/-- The chunking loop of `restore_punctuation_and_case` (source lines
201-217), fuelled by the input length (each iteration advances `i` by at
least one character).  `raw[a:b]` is `(raw.drop a).take (b - a)`; Python
slice clamping and `max(0, i - overlap)` are both handled by truncated
natural subtraction and by `take` past the end. -/
def chunksGo (raw : List Char) : Nat → Nat → List (List Char)
  | 0, _ => []
  | fuel + 1, i =>
    if i < raw.length then
      let e := min (i + 2000) raw.length
      let chunk := (raw.drop i).take (e - i)
      let chunk := if i ≠ 0 then (raw.drop (i - 50)).take (e - (i - 50)) else chunk
      let chunk := if e < raw.length then (raw.drop i).take (e + 50 - i) else chunk
      chunk :: chunksGo raw fuel e
    else []

/-- The chunk list produced for `raw_text` by `restore_punctuation_and_case`. -/
def restoreChunks (raw : List Char) : List (List Char) :=
  chunksGo raw raw.length 0

/-- The model invocation may raise; `Except` models a Python exception. -/
abbrev PyErr := Unit

/-- `restore_punctuation_and_case` (source lines 195-228), parameterised by
the availability flag `PUNCT_AVAILABLE` and by the behaviour of
`PUNCT_MODEL.restore_punctuation` on each chunk; a per-chunk exception is
caught and the original chunk text substituted.  The restored chunks are
joined with single spaces and whitespace-normalised. -/
def restore_punctuation_and_case (punctAvailable : Bool)
    (model : List Char → Except PyErr (List Char)) (raw_text : List Char) :
    List Char :=
  if raw_text.isEmpty then []
  else if !punctAvailable then raw_text
  else
    normWs (List.intercalate [' ']
      ((restoreChunks raw_text).map (fun c =>
        match model c with
        | Except.ok out => out
        | Except.error _ => c)))

/-- Index of the first character matching `[A-Za-z0-9]`, as
`re.search(r"[A-Za-z0-9]", s).start()`. -/
def firstAlnumIdx : List Char → Option Nat
  | [] => none
  | c :: r => if isAsciiAlnum c then some 0 else (firstAlnumIdx r).map (· + 1)

/-- The per-sentence capitalisation step of `sentence_segment_and_capitalize`
(source lines 242-246): `s[:i] + s[i].upper() + s[i+1:]` at the first
`[A-Za-z0-9]` position, unchanged when the regex finds nothing. -/
def sentCapitalize (s : List Char) : List Char :=
  match firstAlnumIdx s with
  | some i =>
    match s.drop i with
    | c :: rest => s.take i ++ asciiUpper c :: rest
    | [] => s
  | none => s

/-- Fuelled scanner for the fallback sentence splitter
`re.split(r"(?<=[\.\?\!])\s+", text)`: a maximal whitespace run preceded by
a sentence-ending character separates two pieces.  `prev` is the character
before the current position (`none` at the start of the string; after a
consumed run it is whitespace, which never satisfies the lookbehind, so a
space stands in for it). -/
def sentSplitF : Nat → Option Char → List Char → List (List Char)
  | 0, _, s => [s]
  | _ + 1, _, [] => [[]]
  | fuel + 1, prev, c :: r =>
    if isPySpace c && (prev.elim false isSentEnd) then
      [] :: sentSplitF fuel (some ' ') (r.dropWhile isPySpace)
    else
      match sentSplitF fuel (some c) r with
      | h :: t => (c :: h) :: t
      | [] => [[c]]

/-- Fallback sentence splitting on whitespace after `.`, `?` or `!`. -/
def sentSplit (text : List Char) : List (List Char) :=
  sentSplitF text.length none text

/-- `sentence_segment_and_capitalize` (source lines 231-247) in the
configuration without the spaCy model (`SPACY_AVAILABLE` false), the only
branch with embeddable behaviour: regex split, strip and drop empty
sentences, capitalise each, rejoin with single spaces. -/
def sentence_segment_and_capitalize (text : List Char) : List Char :=
  if text.isEmpty then []
  else
    let sents := ((sentSplit text).map pyStrip).filter (fun s => !(s.isEmpty))
    List.intercalate [' '] (sents.map sentCapitalize)

/-- Fuelled scanner for `re.sub(r"\s+([,.;:!?])", r"\1", final)`: a maximal
whitespace run directly followed by a punctuation character is replaced by
that punctuation character (the greedy `\s+` is forced maximal because
punctuation is not whitespace); scanning resumes after the match. -/
def punctFix1F : Nat → List Char → List Char
  | 0, s => s
  | _ + 1, [] => []
  | fuel + 1, c :: r =>
    if isPySpace c then
      match (c :: r).dropWhile isPySpace with
      | p :: r' =>
        if isPunctCls p then p :: punctFix1F fuel r'
        else c :: punctFix1F fuel r
      | [] => c :: punctFix1F fuel r
    else c :: punctFix1F fuel r

/-- Remove whitespace before punctuation, line 269 of the source. -/
def punctFix1 (s : List Char) : List Char :=
  punctFix1F s.length s

/-- Scanner for `re.sub(r"([,.;:!?])([^\s])", r"\1 \2", final)`: a
punctuation character directly followed by a non-whitespace character gets a
space inserted between them; both matched characters are consumed, so
scanning resumes after the second one. -/
def punctFix2 : List Char → List Char
  | [] => []
  | [c] => [c]
  | c :: d :: r =>
    if isPunctCls c && !(isPySpace d) then c :: ' ' :: d :: punctFix2 r
    else c :: punctFix2 (d :: r)

/-- The input of `clean_transcript_nlp`: a raw string or a segment list. -/
inductive CleanSource where
  | str (s : List Char)
  | segs (l : List (List Char))

/-- The raw text computed in the first two lines of `clean_transcript_nlp`:
`_join_segments_for_nlp` for a list, `_ensure_text` (the identity on
strings) otherwise. -/
def rawOfSource : CleanSource → List Char
  | CleanSource.str s => s
  | CleanSource.segs l => join_segments_for_nlp l

/-- The pre-restoration text of `clean_transcript_nlp` (source lines
258-263): join, strip artifacts, normalise whitespace. -/
def preClean (source : CleanSource) : List Char :=
  normWs (strip_vtt_srt_artifacts (rawOfSource source))

/-- The post-restoration steps of `clean_transcript_nlp` (source lines
268-271): sentence segmentation and capitalisation, punctuation spacing
fixes, final whitespace normalisation. -/
def postClean (t : List Char) : List Char :=
  normWs (punctFix2 (punctFix1 (sentence_segment_and_capitalize t)))

/-- Explicit `try`/`except`: use the handler on an exception. -/
def tryCatchE (x : Except PyErr (List Char))
    (handler : PyErr → Except PyErr (List Char)) : Except PyErr (List Char) :=
  match x with
  | Except.ok a => Except.ok a
  | Except.error e => handler e

/-- `clean_transcript_nlp` (source lines 250-272), parameterised by the
behaviour of the restoration step (which in Python may raise, modelled by
`Except`): the `try`/`except` at lines 264-267 replaces a failed
restoration by the pre-restoration text `raw`. -/
def clean_transcript_nlp (restore : List Char → Except PyErr (List Char))
    (source : CleanSource) : Except PyErr (List Char) :=
  match tryCatchE (restore (preClean source))
      (fun _ => Except.ok (preClean source)) with
  | Except.ok puncted => Except.ok (postClean puncted)
  | Except.error e => Except.error e

/-- `clean_transcript_nlp` in the configuration where neither NLP model is
available: the restoration step is `restore_punctuation_and_case` with
`PUNCT_AVAILABLE` false (it cannot raise, so the result is always `ok`). -/
def clean_noModels (segs : List (List Char)) : List Char :=
  match clean_transcript_nlp
      (fun s => Except.ok
        (restore_punctuation_and_case false (fun _ => Except.error ()) s))
      (CleanSource.segs segs) with
  | Except.ok t => t
  | Except.error _ => []

/-- The per-line filter of the VTT branch of `yt_dlp_fetch_subtitles`
(source lines 333-340): keep a line unless its stripped uppercase form
starts with `WEBVTT`, or it contains `-->`, or its stripped form is all
digits. -/
def keepSubLine (line : List Char) : Bool :=
  !(isPref ("WEBVTT".toList) ((pyStrip line).map asciiUpper)) &&
  !(containsSub ("-->".toList) line) &&
  !(pyIsDigit (pyStrip line))

/-- Reading of an extracted VTT subtitle file in `yt_dlp_fetch_subtitles`
(source lines 331-341): split into lines, drop header lines, `-->` lines
and cue-number lines, rejoin with newlines and strip. -/
def yt_dlp_vtt_read (content : List Char) : List Char :=
  pyStrip (List.intercalate ['\n'] ((splitLinesPy content).filter keepSubLine))

/-- Fuelled scanner for Python `str.split("watch?v=")` (source line 315):
at each position, an occurrence of the eight-character marker ends the
current field and is consumed; fields between occurrences are collected
(leftmost, non-overlapping, exactly Python semantics for a non-empty
separator). -/
def splitMarkerF : Nat → List Char → List (List Char)
  | 0, s => [s]
  | _ + 1, [] => [[]]
  | fuel + 1, c :: r =>
    if isPref ("watch?v=".toList) (c :: r) then
      [] :: splitMarkerF fuel ((c :: r).drop 8)
    else
      match splitMarkerF fuel r with
      | h :: t => (c :: h) :: t
      | [] => [[c]]

/-- Python `str.split("watch?v=")`. -/
def splitMarker (s : List Char) : List (List Char) :=
  splitMarkerF s.length s

/-- Python `str.rstrip("/")`. -/
def rstripSlash (s : List Char) : List Char :=
  (s.reverse.dropWhile (fun c => c == '/')).reverse

/-- The video-id resolution of `yt_dlp_fetch_subtitles` (source lines
313-317): `url.split("watch?v=")[-1].split("&")[0]` when the marker occurs,
otherwise `url.rstrip("/").split("/")[-1]`. -/
def yt_resolve_video_id (video_url : List Char) : List Char :=
  if containsSub ("watch?v=".toList) video_url then
    ((splitSep '&' ((splitMarker video_url).getLastD [])).headD [])
  else
    ((splitSep '/' (rstripSlash video_url)).getLastD [])

/-!  Definitions taken from the specification's words (not from the source),
used to state the claims that compare the code against the spec. -/

/-- Modelled from the spec: a header line in the three line-classification
rules shared by the two call sites — its stripped uppercase form starts
with `WEBVTT`. -/
def specHeaderLine (l : List Char) : Bool :=
  isPref ("WEBVTT".toList) ((pyStrip l).map asciiUpper)

/-- Modelled from the spec: a timestamp line — it contains `-->`. -/
def specArrowLine (l : List Char) : Bool :=
  containsSub ("-->".toList) l

/-- Modelled from the spec: a cue-number line — whitespace-trimmed digits. -/
def specCueLine (l : List Char) : Bool :=
  pyIsDigit (pyStrip l)

/-- Modelled from the spec: a text is free of header, timestamp and
cue-number lines when every one of its lines is none of the three. -/
def specLinesClean (t : List Char) : Bool :=
  (splitSep '\n' t).all (fun l =>
    !(specHeaderLine l) && !(specArrowLine l) && !(specCueLine l))

/-- Modelled from the spec: the suffix after the first occurrence of `pat`,
if `pat` occurs. -/
def afterFirst (pat : List Char) : List Char → Option (List Char)
  | [] => if pat.isEmpty then some [] else none
  | s@(_ :: r) =>
    if isPref pat s then some (s.drop pat.length) else afterFirst pat r

/-- The suffix after the last occurrence of `pat`, if `pat` occurs. -/
def afterLast (pat : List Char) : List Char → Option (List Char)
  | [] => if pat.isEmpty then some [] else none
  | s@(_ :: r) =>
    match afterLast pat r with
    | some t => some t
    | none => if isPref pat s then some (s.drop pat.length) else none

/-- Modelled from the spec (claim C9, read with the first occurrence of the
marker): the identifier is the substring after the marker up to but
excluding the next `&`; otherwise strip trailing `/` and take the final
path segment. -/
def spec_resolve_first (url : List Char) : List Char :=
  match afterFirst ("watch?v=".toList) url with
  | some suffix => suffix.takeWhile (fun c => !(c == '&'))
  | none => ((rstripSlash url).reverse.takeWhile (fun c => !(c == '/'))).reverse

/-- The amended resolution rule: as `spec_resolve_first`, but after the last
occurrence of the marker. -/
def spec_resolve_last (url : List Char) : List Char :=
  match afterLast ("watch?v=".toList) url with
  | some suffix => suffix.takeWhile (fun c => !(c == '&'))
  | none => ((rstripSlash url).reverse.takeWhile (fun c => !(c == '/'))).reverse

/-- Modelled from the claim's words (C10): an alphanumeric character in the
Unicode sense, restricted to the blocks exercised here — ASCII alphanumerics
and Devanagari (an Indic script, as in the claim's example). -/
def isAlnumUni (c : Char) : Bool :=
  isAsciiAlnum c || (0x900 ≤ c.toNat && c.toNat ≤ 0x97F)

/-- Index of the first Unicode-alphanumeric character (restricted model). -/
def firstAlnumUniIdx : List Char → Option Nat
  | [] => none
  | c :: r => if isAlnumUni c then some 0 else (firstAlnumUniIdx r).map (· + 1)

/-!  ## Theorems -/

/-- C6: when no punctuation-restoration model is available
(`PUNCT_AVAILABLE` false), `restore_punctuation_and_case` is the identity
function on every input string, whatever the (unused) model does. -/
theorem restore_identity_when_model_unavailable
    (model : List Char → Except PyErr (List Char)) (raw_text : List Char) :
    restore_punctuation_and_case false model raw_text = raw_text := by
  cases raw_text with
  | nil => rfl
  | cons c r => rfl

theorem chunksGo_succ (raw : List Char) (fuel i : Nat) (hf : fuel ≠ 0) :
    chunksGo raw fuel i =
      (if i < raw.length then
        (if min (i + 2000) raw.length < raw.length then
            (raw.drop i).take (min (i + 2000) raw.length + 50 - i)
         else if i ≠ 0 then
            (raw.drop (i - 50)).take (min (i + 2000) raw.length - (i - 50))
         else (raw.drop i).take (min (i + 2000) raw.length - i))
        :: chunksGo raw (fuel - 1) (min (i + 2000) raw.length)
      else []) := by
  cases fuel with
  | zero => exact absurd rfl hf
  | succ f => simp only [chunksGo, Nat.add_sub_cancel]

/-- C1 (evaluation of the code at the failing input): on a 4100-character
input the chunking produces windows of lengths 2050, 2050 and 150.  The
middle window is `raw[2000:4050]` — the backward extension computed at
lines 211-213 of the source is discarded by the unconditional overwrite at
lines 214-215, so the middle window misses the 50 characters of preceding
context and has length 2050 where the claimed `[max(0,start-50),
min(n,start+2000+50))` would give 2100. -/
theorem chunking_middle_window_eval :
    (restoreChunks (List.replicate 4100 'a')).map List.length =
      [2050, 2050, 150] := by
  have hn : (List.replicate 4100 'a').length = 4100 := List.length_replicate 4100 'a'
  show (chunksGo (List.replicate 4100 'a') (List.replicate 4100 'a').length 0).map
      List.length = _
  rw [hn]
  rw [chunksGo_succ _ _ _ (by norm_num), hn]
  rw [if_pos (by norm_num : (0:Nat) < 4100)]
  rw [show min (0 + 2000) 4100 = 2000 from by norm_num]
  rw [if_pos (by norm_num : (2000:Nat) < 4100)]
  rw [chunksGo_succ _ _ _ (by norm_num), hn]
  rw [if_pos (by norm_num : (2000:Nat) < 4100)]
  rw [show min (2000 + 2000) 4100 = 4000 from by norm_num]
  rw [if_pos (by norm_num : (4000:Nat) < 4100)]
  rw [chunksGo_succ _ _ _ (by norm_num), hn]
  rw [if_pos (by norm_num : (4000:Nat) < 4100)]
  rw [show min (4000 + 2000) 4100 = 4100 from by norm_num]
  rw [if_neg (by norm_num : ¬ (4100:Nat) < 4100)]
  rw [if_pos (by norm_num : (4000:Nat) ≠ 0)]
  rw [chunksGo_succ _ _ _ (by norm_num), hn]
  rw [if_neg (by norm_num : ¬ (4100:Nat) < 4100)]
  simp only [List.map_cons, List.map_nil, List.length_take, List.length_drop, hn]
  norm_num

/-- C8 (counterexample): stripping the scenario-B VTT content does not give
`"hello there"` — the newline left behind by the removed cue line survives
`_strip_vtt_srt_artifacts`, which never collapses whitespace. -/
theorem strip_vtt_scenario_cex :
    strip_vtt_srt_artifacts
        ("WEBVTT\n\n00:00:00.000 --> 00:00:02.000\n1\nhello there".toList) ≠
      ("hello there".toList) := by decide

/-- C8 (amended): stripping the scenario-B VTT content yields exactly
`"\nhello there"`, and the caller's whitespace normalisation
(`re.sub(r"\s+", " ", raw).strip()`, line 263) then yields exactly
`"hello there"`. -/
theorem strip_vtt_scenario_amended :
    strip_vtt_srt_artifacts
        ("WEBVTT\n\n00:00:00.000 --> 00:00:02.000\n1\nhello there".toList) =
      ("\nhello there".toList) ∧
    normWs (strip_vtt_srt_artifacts
        ("WEBVTT\n\n00:00:00.000 --> 00:00:02.000\n1\nhello there".toList)) =
      ("hello there".toList) := by
  exact ⟨by decide, by decide⟩

/-- C2 (counterexample): the artifact stripper is not idempotent.  On
`"&amp;amp;"` one application yields `"&amp;"` (entity decoding once), a
second application yields `"&"`. -/
theorem strip_not_idempotent_cex :
    strip_vtt_srt_artifacts (strip_vtt_srt_artifacts ("&amp;amp;".toList)) ≠
      strip_vtt_srt_artifacts ("&amp;amp;".toList) := by decide

/-- C3 (counterexample): the artifact stripper alone does not produce text
free of timestamp lines: SRT comma timestamps match neither of its two
dot-separated timestamp patterns, so the `-->` line survives, while the
file-reading filter would drop any line containing `-->`. -/
theorem stripper_misses_srt_timestamp_cex :
    specLinesClean (strip_vtt_srt_artifacts
        ("00:00:00,000 --> 00:00:02,000\nhello".toList)) = false := by decide

/-- C7 (counterexample): a non-empty segment sequence on which
`clean_transcript_nlp` returns the empty string — a single segment whose
text is empty. -/
theorem clean_empty_output_cex :
    ([([] : List Char)] ≠ ([] : List (List Char))) ∧
      clean_noModels [[]] = [] := by
  exact ⟨by decide, by decide⟩

/-- C9 (counterexample): resolution does not take the substring after the
first occurrence of `watch?v=` — the source takes
`url.split("watch?v=")[-1]`, the suffix after the last occurrence: on
`"watch?v=a&watch?v=b"` the code yields `"b"` while the claim's rule reads
`"a"`. -/
theorem resolve_first_marker_cex :
    yt_resolve_video_id ("watch?v=a&watch?v=b".toList) ≠
      spec_resolve_first ("watch?v=a&watch?v=b".toList) := by decide

/-- C10 (counterexample): a sentence whose first alphanumeric character is
the non-ASCII Devanagari letter `ह` is still changed by the capitalisation
step, because the regex `[A-Za-z0-9]` skips past it and uppercases the
later ASCII letter. -/
theorem capitalize_nonascii_cex :
    firstAlnumUniIdx ("ह a".toList) = some 0 ∧
    isAsciiAlnum 'ह' = false ∧
    sentCapitalize ("ह a".toList) ≠ ("ह a".toList) := by
  refine ⟨by decide, by decide, by decide⟩

theorem firstAlnumIdx_drop (s : List Char) (i : Nat)
    (h : firstAlnumIdx s = some i) :
    ∃ c rest, s.drop i = c :: rest ∧ isAsciiAlnum c = true := by
  induction s generalizing i with
  | nil => simp [firstAlnumIdx] at h
  | cons a r ih =>
    by_cases ha : isAsciiAlnum a
    · simp only [firstAlnumIdx, ha, if_pos] at h
      obtain rfl : (0 : Nat) = i := Option.some_injective _ h
      exact ⟨a, r, rfl, ha⟩
    · simp only [firstAlnumIdx, ha, if_neg, Bool.false_eq_true, if_false,
        Option.map_eq_some'] at h
      obtain ⟨i', hi', rfl⟩ := h
      obtain ⟨c, rest, hd, hc⟩ := ih _ hi'
      exact ⟨c, rest, by simpa using hd, hc⟩

/-- C5: the capitalisation step changes at most one character — when the
regex `[A-Za-z0-9]` finds nothing the sentence is unchanged, and when its
first match is at index `i` the result has the same length, position `i`
holds the uppercased original (an ASCII alphanumeric), and every other
position is untouched. -/
theorem sentence_capitalize_spec (s : List Char) :
    (firstAlnumIdx s = none → sentCapitalize s = s) ∧
    (∀ i, firstAlnumIdx s = some i →
      (sentCapitalize s).length = s.length ∧
      (∃ c, s[i]? = some c ∧ isAsciiAlnum c = true ∧
        (sentCapitalize s)[i]? = some (asciiUpper c)) ∧
      (∀ j, j ≠ i → (sentCapitalize s)[j]? = s[j]?)) := by
  constructor
  · intro h
    simp [sentCapitalize, h]
  · intro i hi
    obtain ⟨c, rest, hd, hc⟩ := firstAlnumIdx_drop s i hi
    have hcap : sentCapitalize s = s.take i ++ asciiUpper c :: rest := by
      simp [sentCapitalize, hi, hd]
    have hlen_i : i < s.length := by
      by_contra hle
      push_neg at hle
      rw [List.drop_eq_nil_of_le hle] at hd
      exact List.noConfusion hd
    have htake : (s.take i).length = i := by
      rw [List.length_take]
      omega
    have hsplit : s = s.take i ++ s.drop i := (List.take_append_drop i s).symm
    have hlen : (sentCapitalize s).length = s.length := by
      rw [hcap]
      conv_rhs => rw [hsplit]
      simp [hd]
    refine ⟨hlen, ⟨c, ?_, hc, ?_⟩, ?_⟩
    · conv_lhs => rw [hsplit]
      rw [List.getElem?_append_right (by omega), htake, hd]
      simp [Nat.sub_self]
    · rw [hcap, List.getElem?_append_right (by omega), htake]
      simp [Nat.sub_self]
    · intro j hj
      rcases Nat.lt_or_ge j i with hlt | hge
      · rw [hcap, List.getElem?_append, htake, if_pos hlt]
        conv_rhs => rw [hsplit]
        rw [List.getElem?_append, htake, if_pos hlt]
      · have hgt : i < j := by omega
        rw [hcap, List.getElem?_append_right (by omega), htake]
        conv_rhs => rw [hsplit]
        rw [List.getElem?_append_right (by omega), htake, hd]
        have hji : j - i = (j - i - 1) + 1 := by omega
        rw [hji]
        simp

/-- Witness for C5 at the concrete sentence `"?so"`: the first alphanumeric
is at index 1 and capitalisation yields `"?So"`. -/
theorem sentence_capitalize_spec_w :
    firstAlnumIdx ("?so".toList) = some 1 ∧
    sentCapitalize ("?so".toList) = ("?So".toList) ∧
    (sentCapitalize ("?so".toList)).length = ("?so".toList).length := by
  refine ⟨by decide, by decide, ?_⟩
  exact ((sentence_capitalize_spec ("?so".toList)).2 1 (by decide)).1

/-- C10 (amended): the capitalisation regex matches only ASCII
`[A-Za-z0-9]`, so a sentence containing no ASCII alphanumeric character at
all is returned unchanged (a sentence whose first Unicode alphanumeric is
non-ASCII may still be changed at a later ASCII alphanumeric, see the
counterexample). -/
theorem capitalize_no_ascii_alnum_unchanged (s : List Char)
    (h : ∀ c ∈ s, isAsciiAlnum c = false) : sentCapitalize s = s := by
  have hidx : firstAlnumIdx s = none := by
    induction s with
    | nil => rfl
    | cons a r ih =>
      have ha := h a (by simp)
      simp [firstAlnumIdx, ha, ih (fun c hc => h c (by simp [hc]))]
  simp [sentCapitalize, hidx]

/-- Witness for C10 at a Devanagari-only sentence: unchanged. -/
theorem capitalize_no_ascii_alnum_unchanged_w :
    sentCapitalize ("नमस्ते!".toList) = ("नमस्ते!".toList) :=
  capitalize_no_ascii_alnum_unchanged _ (by decide)

/-- C4: `clean_transcript_nlp` never raises — whatever the restoration step
does, the result is `ok`; when the restoration step raises, the
pre-restoration stripped text is used instead; and for empty input (empty
string or empty segment list) the result is the empty string under the real
restoration step in any model configuration. -/
theorem clean_transcript_nlp_total
    (restore : List Char → Except PyErr (List Char)) (source : CleanSource) :
    (∃ t, clean_transcript_nlp restore source = Except.ok t) ∧
    (∀ e, restore (preClean source) = Except.error e →
      clean_transcript_nlp restore source =
        Except.ok (postClean (preClean source))) ∧
    (∀ avail model,
      clean_transcript_nlp
          (fun s => Except.ok (restore_punctuation_and_case avail model s))
          (CleanSource.str []) = Except.ok [] ∧
      clean_transcript_nlp
          (fun s => Except.ok (restore_punctuation_and_case avail model s))
          (CleanSource.segs []) = Except.ok []) := by
  refine ⟨?_, ?_, ?_⟩
  · unfold clean_transcript_nlp tryCatchE
    cases h : restore (preClean source) with
    | ok p => exact ⟨postClean p, rfl⟩
    | error e => exact ⟨postClean (preClean source), rfl⟩
  · intro e he
    unfold clean_transcript_nlp tryCatchE
    rw [he]
  · intro avail model
    have hre : restore_punctuation_and_case avail model [] = [] := by
      cases avail <;> rfl
    have h1 : preClean (CleanSource.str []) = [] := rfl
    have h2 : preClean (CleanSource.segs []) = [] := rfl
    constructor
    · have hs : clean_transcript_nlp
          (fun s => Except.ok (restore_punctuation_and_case avail model s))
          (CleanSource.str []) =
          Except.ok (postClean (restore_punctuation_and_case avail model
            (preClean (CleanSource.str [])))) := rfl
      rw [hs, h1, hre]
      rfl
    · have hs : clean_transcript_nlp
          (fun s => Except.ok (restore_punctuation_and_case avail model s))
          (CleanSource.segs []) =
          Except.ok (postClean (restore_punctuation_and_case avail model
            (preClean (CleanSource.segs [])))) := rfl
      rw [hs, h2, hre]
      rfl

/-- Witness for C4: a restoration step that always raises, on the string
input `"hi"` — the exception is caught and the cleaned pre-restoration
text `"Hi"` is returned. -/
theorem clean_transcript_nlp_total_w :
    clean_transcript_nlp (fun _ => Except.error ())
        (CleanSource.str ("hi".toList)) = Except.ok ("Hi".toList) := by
  have h := (clean_transcript_nlp_total (fun _ => Except.error ())
    (CleanSource.str ("hi".toList))).2.1 () rfl
  rw [h]
  exact congrArg Except.ok (by decide)

theorem isPref_self_append (p z : List Char) : isPref p (p ++ z) = true := by
  induction p with
  | nil => rfl
  | cons a as ih => simp [isPref, ih]

theorem containsSub_of_isPref (p s : List Char) (h : isPref p s = true) :
    containsSub p s = true := by
  cases s with
  | nil => exact h
  | cons a r => simp [containsSub, h]

theorem containsSub_cons (p : List Char) (a : Char) (r : List Char)
    (h : containsSub p r = true) : containsSub p (a :: r) = true := by
  simp [containsSub, h]

theorem containsSub_map_dropWhile (p : List Char) (q : Char → Bool)
    (u : Char → Char) (y : List Char)
    (h : containsSub p ((y.dropWhile q).map u) = true) :
    containsSub p (y.map u) = true := by
  induction y with
  | nil => simpa using h
  | cons a r ih =>
    by_cases hq : q a
    · rw [List.dropWhile_cons, if_pos hq] at h
      exact containsSub_cons _ _ _ (ih h)
    · rw [List.dropWhile_cons, if_neg hq] at h
      exact h

theorem stripHeader_id (y : List Char)
    (h : containsSub ("WEBVTT".toList) (y.map asciiUpper) = false) :
    stripHeader y = y := by
  unfold stripHeader
  by_cases hp : (((y.dropWhile isPySpace).take 6).map asciiUpper) ==
      ("WEBVTT".toList)
  · exfalso
    have heq : ((y.dropWhile isPySpace).take 6).map asciiUpper =
        ("WEBVTT".toList) := by
      exact beq_iff_eq.mp hp
    have hmap : (y.dropWhile isPySpace).map asciiUpper =
        ("WEBVTT".toList) ++ ((y.dropWhile isPySpace).drop 6).map asciiUpper := by
      conv_lhs =>
        rw [show y.dropWhile isPySpace =
          (y.dropWhile isPySpace).take 6 ++ (y.dropWhile isPySpace).drop 6 from
          (List.take_append_drop 6 _).symm]
      rw [List.map_append, heq]
    have hsub : containsSub ("WEBVTT".toList)
        ((y.dropWhile isPySpace).map asciiUpper) = true := by
      rw [hmap]
      exact containsSub_of_isPref _ _ (isPref_self_append _ _)
    have := containsSub_map_dropWhile _ _ _ _ hsub
    rw [h] at this
    exact Bool.noConfusion this
  · simp only [hp, Bool.false_eq_true, if_false]

theorem pD12Colon_head_digit (k : Nat) (c : Char) (r : List Char) (st : PState)
    (h : pD12Colon (k, c :: r) = some st) : isPyDigit c = true := by
  rcases r with _ | ⟨b, _ | ⟨d, t⟩⟩
  · simp [pD12Colon] at h
  · by_cases h1 : isPyDigit c
    · exact h1
    · simp [pD12Colon, h1] at h
  · by_cases h1 : isPyDigit c
    · exact h1
    · simp [pD12Colon, h1] at h

theorem pD12Colon_none (k : Nat) (c : Char) (r : List Char)
    (h : isPyDigit c = false) : pD12Colon (k, c :: r) = none := by
  cases hp : pD12Colon (k, c :: r) with
  | none => rfl
  | some st =>
    rw [pD12Colon_head_digit _ _ _ _ hp] at h
    exact Bool.noConfusion h

theorem tsMatch1_none (c : Char) (r : List Char) (h : isPyDigit c = false) :
    tsMatch1 (c :: r) = none := by
  unfold tsMatch1
  rw [pD12Colon_none 0 c r h]
  rfl

theorem tsMatch2_none (c : Char) (r : List Char) (h : isPyDigit c = false) :
    tsMatch2 (c :: r) = none := by
  unfold tsMatch2
  rw [pD12Colon_none 0 c r h]
  rfl

theorem replaceScanF_id (m : List Char → Option Nat) (repl : Char)
    (hm : ∀ c r, isPyDigit c = false → m (c :: r) = none) :
    ∀ fuel s, (∀ c ∈ s, isPyDigit c = false) →
      replaceScanF m repl fuel s = s := by
  intro fuel
  induction fuel with
  | zero => intro s _; rfl
  | succ f ih =>
    intro s hs
    cases s with
    | nil => rfl
    | cons c r =>
      have h0 := hm c r (hs c (by simp))
      simp only [replaceScanF, h0]
      rw [ih r (fun d hd => hs d (List.mem_cons_of_mem _ hd))]

theorem subTs1_id (s : List Char) (hs : ∀ c ∈ s, isPyDigit c = false) :
    subTs1 s = s :=
  replaceScanF_id tsMatch1 ' ' (fun c r h => tsMatch1_none c r h) s.length s hs

theorem subTs2_id (s : List Char) (hs : ∀ c ∈ s, isPyDigit c = false) :
    subTs2 s = s :=
  replaceScanF_id tsMatch2 ' ' (fun c r h => tsMatch2_none c r h) s.length s hs

theorem digitLineMatch_none (s : List Char)
    (hs : ∀ c ∈ s, isPyDigit c = false) : digitLineMatch s = none := by
  have hd : ((s.dropWhile isPySpace).takeWhile isPyDigit) = [] := by
    cases h : s.dropWhile isPySpace with
    | nil => rfl
    | cons a t =>
      have ha : a ∈ s := by
        have hmem : a ∈ s.dropWhile isPySpace := by
          rw [h]
          exact List.mem_cons_self a t
        exact (List.dropWhile_sublist isPySpace).subset hmem
      rw [List.takeWhile_cons, if_neg (by simp [hs a ha])]
  unfold digitLineMatch
  simp [hd]

theorem subDigitLinesF_id :
    ∀ fuel (b : Bool) (s : List Char), (∀ c ∈ s, isPyDigit c = false) →
      subDigitLinesF fuel b s = s := by
  intro fuel
  induction fuel with
  | zero => intro b s _; rfl
  | succ f ih =>
    intro b s hs
    cases s with
    | nil => rfl
    | cons c r =>
      have h0 := digitLineMatch_none (c :: r) hs
      have h1 := ih (c == '\n') r (fun d hd => hs d (List.mem_cons_of_mem _ hd))
      cases b with
      | true => simp [subDigitLinesF, h0, h1]
      | false => simp [subDigitLinesF, h1]

theorem subDigitLines_id (s : List Char)
    (hs : ∀ c ∈ s, isPyDigit c = false) : subDigitLines s = s :=
  subDigitLinesF_id s.length true s hs

theorem htmlUnescapeF_id :
    ∀ fuel (s : List Char), (∀ c ∈ s, (c == '&') = false) →
      htmlUnescapeF fuel s = s := by
  intro fuel
  induction fuel with
  | zero => intro s _; rfl
  | succ f ih =>
    intro s hs
    cases s with
    | nil => rfl
    | cons c r =>
      have h0 := hs c (by simp)
      simp only [htmlUnescapeF, h0, Bool.false_eq_true, if_false]
      rw [ih r (fun d hd => hs d (List.mem_cons_of_mem _ hd))]

theorem htmlUnescape_id (s : List Char)
    (hs : ∀ c ∈ s, (c == '&') = false) : htmlUnescape s = s :=
  htmlUnescapeF_id s.length s hs

theorem strip_fixed (y : List Char)
    (hamp : ∀ c ∈ y, (c == '&') = false)
    (hdig : ∀ c ∈ y, isPyDigit c = false)
    (hweb : containsSub ("WEBVTT".toList) (y.map asciiUpper) = false) :
    strip_vtt_srt_artifacts y = y := by
  cases y with
  | nil => rfl
  | cons a r =>
    unfold strip_vtt_srt_artifacts
    rw [if_neg (by simp)]
    rw [stripHeader_id _ hweb, subTs1_id _ hdig, subTs2_id _ hdig,
      subDigitLines_id _ hdig, htmlUnescape_id _ hamp]

/-- C2 (amended): the artifact stripper is idempotent on every input whose
stripped form contains no ampersand, no ASCII digit and no case-insensitive
occurrence of `WEBVTT` — on such already-clean output a second application
finds nothing to remove. -/
theorem strip_idempotent_on_clean (x : List Char)
    (hamp : ∀ c ∈ strip_vtt_srt_artifacts x, (c == '&') = false)
    (hdig : ∀ c ∈ strip_vtt_srt_artifacts x, isPyDigit c = false)
    (hweb : containsSub ("WEBVTT".toList)
        ((strip_vtt_srt_artifacts x).map asciiUpper) = false) :
    strip_vtt_srt_artifacts (strip_vtt_srt_artifacts x) =
      strip_vtt_srt_artifacts x :=
  strip_fixed _ hamp hdig hweb

/-- Witness for C2 at the scenario-B VTT content, whose stripped form
`"\nhello there"` is clean in the required sense. -/
theorem strip_idempotent_on_clean_w :
    strip_vtt_srt_artifacts (strip_vtt_srt_artifacts
        ("WEBVTT\n\n00:00:00.000 --> 00:00:02.000\n1\nhello there".toList)) =
      strip_vtt_srt_artifacts
        ("WEBVTT\n\n00:00:00.000 --> 00:00:02.000\n1\nhello there".toList) :=
  strip_idempotent_on_clean _ (by decide) (by decide) (by decide)

theorem splitSep_ne_nil (sep : Char) (s : List Char) : splitSep sep s ≠ [] := by
  cases s with
  | nil => simp [splitSep]
  | cons c r =>
    unfold splitSep
    by_cases h : c == sep
    · simp [h]
    · simp only [h, Bool.false_eq_true, if_false]
      cases splitSep sep r <;> simp

theorem splitSep_not_mem (sep : Char) (s : List Char) :
    ∀ l ∈ splitSep sep s, sep ∉ l := by
  induction s with
  | nil =>
    intro l hl
    simp [splitSep] at hl
    simp [hl]
  | cons c r ih =>
    intro l hl
    unfold splitSep at hl
    by_cases h : c == sep
    · rw [if_pos h] at hl
      rcases List.mem_cons.mp hl with rfl | hmem
      · simp
      · exact ih l hmem
    · rw [if_neg (by simp [h] : ¬ (c == sep) = true)] at hl
      rcases hsp : splitSep sep r with _ | ⟨h0, t0⟩
      · exact absurd hsp (splitSep_ne_nil sep r)
      · rw [hsp] at hl
        rcases List.mem_cons.mp hl with rfl | hmem
        · intro hcon
          rcases List.mem_cons.mp hcon with heq | hmem2
          · rw [heq] at h
            simp at h
          · exact ih h0 (by rw [hsp]; exact List.mem_cons_self _ _) hmem2
        · exact ih l (by rw [hsp]; exact List.mem_cons_of_mem _ hmem)

theorem splitSep_cons_of_ne (sep c : Char) (r : List Char) (h : ¬ c = sep) :
    splitSep sep (c :: r) =
      (c :: (splitSep sep r).headD []) :: (splitSep sep r).tail := by
  rcases hsp : splitSep sep r with _ | ⟨h0, t0⟩
  · exact absurd hsp (splitSep_ne_nil sep r)
  · conv_lhs => unfold splitSep
    rw [if_neg (by simp [h] : ¬ (c == sep) = true), hsp]
    simp

theorem splitSep_of_not_mem (sep : Char) (x : List Char) (h : sep ∉ x) :
    splitSep sep x = [x] := by
  induction x with
  | nil => rfl
  | cons c r ih =>
    have hc : ¬ c = sep := fun he => h (he ▸ List.mem_cons_self c r)
    rw [splitSep_cons_of_ne sep c r hc,
      ih (fun hm => h (List.mem_cons_of_mem _ hm))]
    rfl

theorem splitSep_append_sep (sep : Char) (x rest : List Char) (h : sep ∉ x) :
    splitSep sep (x ++ sep :: rest) = x :: splitSep sep rest := by
  induction x with
  | nil => simp [splitSep]
  | cons c r ih =>
    have hc : ¬ c = sep := fun he => h (he ▸ List.mem_cons_self c r)
    have ih' := ih (fun hm => h (List.mem_cons_of_mem _ hm))
    rw [List.cons_append, splitSep_cons_of_ne sep c _ hc, ih']
    rfl

theorem splitSep_intercalate (sep : Char) (ls : List (List Char))
    (hne : ls ≠ []) (hnl : ∀ l ∈ ls, sep ∉ l) :
    splitSep sep (List.intercalate [sep] ls) = ls := by
  induction ls with
  | nil => exact absurd rfl hne
  | cons x t ih =>
    cases t with
    | nil =>
      rw [show List.intercalate [sep] [x] = x from by simp [List.intercalate]]
      exact splitSep_of_not_mem sep x (hnl x (List.mem_cons_self _ _))
    | cons y t2 =>
      have hx : sep ∉ x := hnl x (List.mem_cons_self _ _)
      have hstep : List.intercalate [sep] (x :: y :: t2) =
          x ++ sep :: List.intercalate [sep] (y :: t2) := by
        simp [List.intercalate, List.intersperse]
      rw [hstep, splitSep_append_sep sep x _ hx,
        ih (by simp) (fun l hl => hnl l (List.mem_cons_of_mem _ hl))]

theorem splitSep_glue (sep : Char) (xs ys : List Char) :
    splitSep sep (xs ++ ys) = glueSplit (splitSep sep xs) (splitSep sep ys) := by
  induction xs with
  | nil =>
    rcases hy : splitSep sep ys with _ | ⟨h, t⟩
    · exact absurd hy (splitSep_ne_nil sep ys)
    · simp [glueSplit, splitSep, hy]
  | cons c xs ih =>
    by_cases hc : c = sep
    · subst hc
      have hl : splitSep c ((c :: xs) ++ ys) = [] :: splitSep c (xs ++ ys) := by
        conv_lhs => unfold splitSep
        simp
      have hr : splitSep c (c :: xs) = [] :: splitSep c xs := by
        conv_lhs => unfold splitSep
        simp
      rw [hl, hr, ih]
      rcases hx : splitSep c xs with _ | ⟨h0, t0⟩
      · exact absurd hx (splitSep_ne_nil c xs)
      · rfl
    · rw [show (c :: xs) ++ ys = c :: (xs ++ ys) from rfl,
        splitSep_cons_of_ne sep c (xs ++ ys) hc, ih,
        splitSep_cons_of_ne sep c xs hc]
      rcases hx : splitSep sep xs with _ | ⟨h0, t0⟩
      · exact absurd hx (splitSep_ne_nil sep xs)
      · rcases hy : splitSep sep ys with _ | ⟨hy0, ty0⟩
        · exact absurd hy (splitSep_ne_nil sep ys)
        · cases t0 with
          | nil => simp [glueSplit]
          | cons b t1 => simp [glueSplit]

theorem glueSplit_cons (X : List (List Char)) (h : X ≠ []) (hh : List Char)
    (t : List (List Char)) :
    glueSplit X (hh :: t) = X.dropLast ++ ((X.getLastD []) ++ hh) :: t := by
  induction X with
  | nil => exact absurd rfl h
  | cons a X ih =>
    cases X with
    | nil => simp [glueSplit]
    | cons b X2 =>
      rw [show glueSplit (a :: b :: X2) (hh :: t) =
        a :: glueSplit (b :: X2) (hh :: t) from rfl]
      rw [ih (by simp)]
      rw [show (a :: b :: X2).dropLast = a :: (b :: X2).dropLast from rfl]
      rw [show (a :: b :: X2).getLastD [] = (b :: X2).getLastD [] from by
        rw [List.getLastD_eq_getLast?, List.getLastD_eq_getLast?,
          List.getLast?_cons_cons]]
      rfl

theorem dropLast_concat_getLastD (X : List (List Char)) (h : X ≠ []) :
    X.dropLast ++ [X.getLastD []] = X := by
  induction X with
  | nil => exact absurd rfl h
  | cons a X ih =>
    cases X with
    | nil => rfl
    | cons b X2 =>
      rw [show (a :: b :: X2).dropLast = a :: (b :: X2).dropLast from rfl]
      rw [show (a :: b :: X2).getLastD [] = (b :: X2).getLastD [] from by
        rw [List.getLastD_eq_getLast?, List.getLastD_eq_getLast?,
          List.getLast?_cons_cons]]
      rw [List.cons_append, ih (by simp)]

theorem splitSep_reverse (sep : Char) (s : List Char) :
    splitSep sep s.reverse = ((splitSep sep s).map List.reverse).reverse := by
  induction s with
  | nil => simp [splitSep]
  | cons c s ih =>
    rw [List.reverse_cons, splitSep_glue sep s.reverse [c], ih]
    by_cases hc : c = sep
    · subst hc
      have h1 : splitSep c [c] = [[], []] := by
        unfold splitSep
        simp [splitSep]
      have h2 : splitSep c (c :: s) = [] :: splitSep c s := by
        conv_lhs => unfold splitSep
        simp
      have hXne : ((splitSep c s).map List.reverse).reverse ≠ [] := by
        simp [splitSep_ne_nil]
      rw [h1, h2, glueSplit_cons _ hXne, List.append_nil]
      rw [show ∀ (X : List (List Char)) (z : List Char),
          X.dropLast ++ (X.getLastD []) :: [z] =
          (X.dropLast ++ [X.getLastD []]) ++ [z] from fun X z => by simp]
      rw [dropLast_concat_getLastD _ hXne]
      simp
    · have h1 : splitSep sep [c] = [[c]] :=
        splitSep_of_not_mem sep [c] (by simpa using Ne.symm hc)
      rw [h1, splitSep_cons_of_ne sep c s hc]
      rcases hL : splitSep sep s with _ | ⟨h0, t0⟩
      · exact absurd hL (splitSep_ne_nil sep s)
      · rw [glueSplit_cons _ (by simp)]
        simp [List.getLastD_eq_getLast?, List.getLast?_concat]

theorem lines_dropWhile_sub (t : List Char) :
    ∀ l ∈ splitSep '\n' (t.dropWhile isPySpace),
      ∃ l' ∈ splitSep '\n' t,
        ∃ a, (∀ c ∈ a, isPySpace c = true) ∧ l' = a ++ l := by
  induction t with
  | nil =>
    intro l hl
    exact ⟨l, by simpa using hl, [], by simp, rfl⟩
  | cons c r ih =>
    intro l hl
    by_cases hws : isPySpace c
    · rw [List.dropWhile_cons, if_pos hws] at hl
      by_cases hnl : c = '\n'
      · obtain ⟨l', hl', a, ha, heq⟩ := ih l hl
        refine ⟨l', ?_, a, ha, heq⟩
        subst hnl
        have hc : splitSep '\n' ('\n' :: r) = [] :: splitSep '\n' r := by
          conv_lhs => unfold splitSep
          simp
        rw [hc]
        exact List.mem_cons_of_mem _ hl'
      · obtain ⟨l', hl', a, ha, heq⟩ := ih l hl
        rw [splitSep_cons_of_ne '\n' c r hnl]
        rcases hL : splitSep '\n' r with _ | ⟨h0, t0⟩
        · exact absurd hL (splitSep_ne_nil _ _)
        · simp only [List.headD_cons, List.tail_cons]
          rw [hL] at hl'
          rcases List.mem_cons.mp hl' with heq0 | hmem
          · subst heq0
            refine ⟨c :: l', by simp, c :: a, ?_, by rw [heq]; rfl⟩
            intro d hd
            rcases List.mem_cons.mp hd with rfl | h2
            · exact hws
            · exact ha d h2
          · exact ⟨l', by simp [hmem], a, ha, heq⟩
    · rw [List.dropWhile_cons, if_neg hws] at hl
      exact ⟨l, hl, [], by simp, rfl⟩

theorem dropWhile_ws_append (a l : List Char)
    (ha : ∀ c ∈ a, isPySpace c = true) :
    (a ++ l).dropWhile isPySpace = l.dropWhile isPySpace := by
  induction a with
  | nil => rfl
  | cons c r ih =>
    rw [List.cons_append, List.dropWhile_cons, if_pos (ha c (by simp))]
    exact ih fun d hd => ha d (by simp [hd])

theorem dropWhile_append_of_ne_nil (p : Char → Bool) (l b : List Char)
    (h : l.dropWhile p ≠ []) :
    (l ++ b).dropWhile p = l.dropWhile p ++ b := by
  induction l with
  | nil => exact absurd rfl h
  | cons c r ih =>
    by_cases hp : p c
    · rw [List.cons_append, List.dropWhile_cons, if_pos hp]
      rw [List.dropWhile_cons, if_pos hp] at h ⊢
      exact ih h
    · rw [List.cons_append, List.dropWhile_cons, if_neg hp,
        List.dropWhile_cons, if_neg hp]
      rfl

theorem stripRight_ws_append (x b : List Char)
    (hb : ∀ c ∈ b, isPySpace c = true) : stripRight (x ++ b) = stripRight x := by
  unfold stripRight
  rw [List.reverse_append, dropWhile_ws_append b.reverse x.reverse
    (fun c hc => hb c (by simpa using hc))]

theorem pyStrip_ws_left (a l : List Char)
    (ha : ∀ c ∈ a, isPySpace c = true) : pyStrip (a ++ l) = pyStrip l := by
  unfold pyStrip stripLeft
  rw [dropWhile_ws_append a l ha]

theorem pyStrip_ws_suffix (l b : List Char)
    (hb : ∀ c ∈ b, isPySpace c = true) : pyStrip (l ++ b) = pyStrip l := by
  unfold pyStrip stripLeft
  by_cases h : l.dropWhile isPySpace = []
  · have hlw : ∀ c ∈ l, isPySpace c = true := by
      intro c hc
      exact List.dropWhile_eq_nil_iff.mp h c hc
    have h2 : (l ++ b).dropWhile isPySpace = [] := by
      rw [List.dropWhile_eq_nil_iff]
      intro c hc
      rcases List.mem_append.mp hc with h3 | h3
      · exact hlw c h3
      · exact hb c h3
    rw [h, h2]
  · rw [dropWhile_append_of_ne_nil isPySpace l b h, stripRight_ws_append _ _ hb]

theorem isPref_append_mono (p s b : List Char) (h : isPref p s = true) :
    isPref p (s ++ b) = true := by
  induction p generalizing s with
  | nil => rfl
  | cons a as ih =>
    cases s with
    | nil => exact Bool.noConfusion h
    | cons c r =>
      simp only [isPref, Bool.and_eq_true] at h
      simp only [List.cons_append, isPref, Bool.and_eq_true]
      exact ⟨h.1, ih r h.2⟩

theorem containsSub_nil_pat (s : List Char) : containsSub [] s = true := by
  induction s with
  | nil => rfl
  | cons c r ih => simp [containsSub, ih]

theorem containsSub_append_right (p s b : List Char)
    (h : containsSub p s = true) : containsSub p (s ++ b) = true := by
  induction s with
  | nil =>
    have hp : p = [] := by
      cases p with
      | nil => rfl
      | cons a as => exact Bool.noConfusion h
    rw [hp]
    exact containsSub_nil_pat b
  | cons c r ih =>
    simp only [containsSub, Bool.or_eq_true] at h
    rcases h with h | h
    · rw [List.cons_append]
      exact containsSub_of_isPref _ _
        (by rw [show (c :: (r ++ b)) = (c :: r) ++ b from rfl]
            exact isPref_append_mono p (c :: r) b h)
    · rw [List.cons_append]
      exact containsSub_cons _ _ _ (ih h)

theorem containsSub_append_left (p a l : List Char)
    (h : containsSub p l = true) : containsSub p (a ++ l) = true := by
  induction a with
  | nil => exact h
  | cons c r ih => exact containsSub_cons _ _ _ ih

theorem keepSubLine_ws_left (a l : List Char)
    (ha : ∀ c ∈ a, isPySpace c = true) (h : keepSubLine (a ++ l) = true) :
    keepSubLine l = true := by
  simp only [keepSubLine, Bool.and_eq_true, Bool.not_eq_true'] at h ⊢
  rw [pyStrip_ws_left a l ha] at h
  refine ⟨⟨h.1.1, ?_⟩, h.2⟩
  cases hc : containsSub ("-->".toList) l with
  | false => rfl
  | true =>
    rw [containsSub_append_left _ a l hc] at h
    exact Bool.noConfusion h.1.2

theorem keepSubLine_ws_suffix (l b : List Char)
    (hb : ∀ c ∈ b, isPySpace c = true) (h : keepSubLine (l ++ b) = true) :
    keepSubLine l = true := by
  simp only [keepSubLine, Bool.and_eq_true, Bool.not_eq_true'] at h ⊢
  rw [pyStrip_ws_suffix l b hb] at h
  refine ⟨⟨h.1.1, ?_⟩, h.2⟩
  cases hc : containsSub ("-->".toList) l with
  | false => rfl
  | true =>
    rw [containsSub_append_right _ l b hc] at h
    exact Bool.noConfusion h.1.2

theorem linesAll_stripLeft (t : List Char)
    (h : ∀ l ∈ splitSep '\n' t, keepSubLine l = true) :
    ∀ l ∈ splitSep '\n' (stripLeft t), keepSubLine l = true := by
  intro l hl
  obtain ⟨l', hl', a, ha, heq⟩ := lines_dropWhile_sub t l hl
  exact keepSubLine_ws_left a l ha (heq ▸ h l' hl')

theorem linesAll_stripRight (t : List Char)
    (h : ∀ l ∈ splitSep '\n' t, keepSubLine l = true) :
    ∀ l ∈ splitSep '\n' (stripRight t), keepSubLine l = true := by
  intro l hl
  have hl2 : l ∈ ((splitSep '\n' (t.reverse.dropWhile isPySpace)).map
      List.reverse).reverse := by
    rw [← splitSep_reverse]
    exact hl
  simp only [List.mem_reverse, List.mem_map] at hl2
  obtain ⟨m, hm, rfl⟩ := hl2
  obtain ⟨l', hl', a, ha, heq⟩ := lines_dropWhile_sub t.reverse m hm
  rw [splitSep_reverse] at hl'
  simp only [List.mem_reverse, List.mem_map] at hl'
  obtain ⟨m0, hm0, hrev⟩ := hl'
  have hm0eq : m0 = m.reverse ++ a.reverse := by
    have h2 := congrArg List.reverse (hrev.trans heq)
    simpa using h2
  have hk := h m0 hm0
  rw [hm0eq] at hk
  exact keepSubLine_ws_suffix _ _ (fun c hc => ha c (by simpa using hc)) hk

/-- C3 (amended): the line filter used when reading an extracted subtitle
file does yield text free of header, timestamp-arrow and cue-number lines —
every line of its output passes all three spec classification rules (the
artifact stripper alone does not give this guarantee, see the
counterexample, so the two call sites do not implement interchangeable
filters). -/
theorem reader_filter_output_clean (content : List Char) :
    specLinesClean (yt_dlp_vtt_read content) = true := by
  have hkeep : ∀ l ∈ (splitLinesPy content).filter keepSubLine,
      keepSubLine l = true := fun l hl => (List.mem_filter.mp hl).2
  have hnl : ∀ l ∈ (splitLinesPy content).filter keepSubLine, '\n' ∉ l := by
    intro l hl
    have hl2 : l ∈ splitLinesPy content := (List.mem_filter.mp hl).1
    unfold splitLinesPy at hl2
    by_cases he : content.isEmpty
    · rw [if_pos he] at hl2
      exact absurd hl2 (List.not_mem_nil l)
    · rw [if_neg he] at hl2
      by_cases hg : content.getLast? == some '\n'
      · rw [if_pos hg] at hl2
        exact splitSep_not_mem '\n' content l
          ((List.dropLast_sublist _).subset hl2)
      · rw [if_neg hg] at hl2
        exact splitSep_not_mem '\n' content l hl2
  have hbase : ∀ l ∈ splitSep '\n'
      (List.intercalate ['\n'] ((splitLinesPy content).filter keepSubLine)),
      keepSubLine l = true := by
    rcases hk : (splitLinesPy content).filter keepSubLine with _ | ⟨x, t⟩
    · intro l hl
      have hl2 : l = [] := by
        have hemp : List.intercalate ['\n'] ([] : List (List Char)) = [] := rfl
        rw [hemp] at hl
        have hsp : splitSep '\n' [] = [[]] := rfl
        rw [hsp] at hl
        simpa using hl
      rw [hl2]
      decide
    · rw [hk] at hnl hkeep
      rw [splitSep_intercalate '\n' (x :: t) (by simp) hnl]
      exact hkeep
  have h1 := linesAll_stripLeft _ hbase
  have h2 := linesAll_stripRight _ h1
  unfold specLinesClean
  rw [List.all_eq_true]
  intro l hl
  have hkl : keepSubLine l = true := h2 l hl
  simpa [keepSubLine, specHeaderLine, specArrowLine, specCueLine] using hkl

theorem isPref_exists (p s : List Char) (h : isPref p s = true) :
    ∃ t, s = p ++ t := by
  induction p generalizing s with
  | nil => exact ⟨s, rfl⟩
  | cons a as ih =>
    cases s with
    | nil => exact Bool.noConfusion h
    | cons c r =>
      simp only [isPref, Bool.and_eq_true, beq_iff_eq] at h
      obtain ⟨rfl, h2⟩ := h
      obtain ⟨t, rfl⟩ := ih r h2
      exact ⟨t, rfl⟩

theorem afterLast_cons_not_pref (pat : List Char) (c : Char) (rest : List Char)
    (h : isPref pat (c :: rest) = false) :
    afterLast pat (c :: rest) = afterLast pat rest := by
  cases hA : afterLast pat rest with
  | some t =>
    conv_lhs => unfold afterLast
    rw [hA]
  | none =>
    conv_lhs => unfold afterLast
    rw [hA, h]
    simp

theorem isPref_marker_cons_ne (b : Char) (x : List Char) (hb : ¬ b = 'w') :
    isPref ("watch?v=".toList) (b :: x) = false := by
  show (('w' == b) && isPref ("atch?v=".toList) x) = false
  rw [show ('w' == b) = false from beq_eq_false_iff_ne.mpr (fun h => hb h.symm)]
  rfl

theorem afterLast_marker_tail (t : List Char) :
    afterLast ("watch?v=".toList) ("atch?v=".toList ++ t) =
      afterLast ("watch?v=".toList) t := by
  show afterLast _ ('a' :: 't' :: 'c' :: 'h' :: '?' :: 'v' :: '=' :: t) = _
  rw [afterLast_cons_not_pref _ 'a' _ (isPref_marker_cons_ne 'a' _ (by decide)),
    afterLast_cons_not_pref _ 't' _ (isPref_marker_cons_ne 't' _ (by decide)),
    afterLast_cons_not_pref _ 'c' _ (isPref_marker_cons_ne 'c' _ (by decide)),
    afterLast_cons_not_pref _ 'h' _ (isPref_marker_cons_ne 'h' _ (by decide)),
    afterLast_cons_not_pref _ '?' _ (isPref_marker_cons_ne '?' _ (by decide)),
    afterLast_cons_not_pref _ 'v' _ (isPref_marker_cons_ne 'v' _ (by decide)),
    afterLast_cons_not_pref _ '=' _ (isPref_marker_cons_ne '=' _ (by decide))]

theorem containsSub_afterLast_isSome (pat s : List Char)
    (h : containsSub pat s = true) : (afterLast pat s).isSome = true := by
  induction s with
  | nil =>
    have hp : pat = [] := by
      cases pat with
      | nil => rfl
      | cons a as => exact Bool.noConfusion h
    subst hp
    rfl
  | cons c r ih =>
    simp only [containsSub, Bool.or_eq_true] at h
    unfold afterLast
    cases hA : afterLast pat r with
    | some t => rfl
    | none =>
      rcases h with h | h
      · simp [h]
      · rw [hA] at ih
        exact Bool.noConfusion (ih h)

theorem afterLast_none_of_not_contains (pat s : List Char) (hne : pat ≠ [])
    (h : containsSub pat s = false) : afterLast pat s = none := by
  induction s with
  | nil =>
    unfold afterLast
    rw [if_neg (by simpa [List.isEmpty_iff] using hne)]
  | cons c r ih =>
    have h1 : isPref pat (c :: r) = false := by
      cases hp : isPref pat (c :: r) with
      | false => rfl
      | true =>
        rw [containsSub, hp, Bool.true_or] at h
        exact Bool.noConfusion h
    have h2 : containsSub pat r = false := by
      cases hc : containsSub pat r with
      | false => rfl
      | true =>
        rw [containsSub, hc, Bool.or_true] at h
        exact Bool.noConfusion h
    unfold afterLast
    rw [ih h2, h1]
    simp

theorem splitMarkerF_ne_nil (fuel : Nat) (s : List Char) :
    splitMarkerF fuel s ≠ [] := by
  cases fuel with
  | zero => simp [splitMarkerF]
  | succ f =>
    cases s with
    | nil => simp [splitMarkerF]
    | cons c r =>
      unfold splitMarkerF
      split
      · simp
      · split <;> simp

theorem splitMarkerF_marker (fuel : Nat) (t : List Char) :
    splitMarkerF (fuel + 1) ("watch?v=".toList ++ t) =
      [] :: splitMarkerF fuel t := by
  show splitMarkerF (fuel + 1)
    ('w' :: 'a' :: 't' :: 'c' :: 'h' :: '?' :: 'v' :: '=' :: t) = _
  conv_lhs => unfold splitMarkerF
  rw [if_pos (show isPref ("watch?v=".toList)
    ('w' :: 'a' :: 't' :: 'c' :: 'h' :: '?' :: 'v' :: '=' :: t) = true from
    isPref_self_append ("watch?v=".toList) t)]
  rfl

theorem splitMarkerF_cons_not_pref (fuel : Nat) (c : Char) (r : List Char)
    (h : isPref ("watch?v=".toList) (c :: r) = false) :
    splitMarkerF (fuel + 1) (c :: r) =
      (c :: (splitMarkerF fuel r).headD []) :: (splitMarkerF fuel r).tail := by
  conv_lhs => unfold splitMarkerF
  rw [h]
  simp only [Bool.false_eq_true, if_false]
  rcases hL : splitMarkerF fuel r with _ | ⟨h0, t0⟩
  · exact absurd hL (splitMarkerF_ne_nil fuel r)
  · simp

theorem splitMarkerF_of_not_contains (s : List Char)
    (h : containsSub ("watch?v=".toList) s = false) :
    ∀ fuel, splitMarkerF fuel s = [s] := by
  induction s with
  | nil =>
    intro fuel
    cases fuel <;> rfl
  | cons c r ih =>
    intro fuel
    cases fuel with
    | zero => rfl
    | succ f =>
      have h1 : isPref ("watch?v=".toList) (c :: r) = false := by
        cases hp : isPref ("watch?v=".toList) (c :: r) with
        | false => rfl
        | true =>
          rw [containsSub, hp, Bool.true_or] at h
          exact Bool.noConfusion h
      have h2 : containsSub ("watch?v=".toList) r = false := by
        cases hc : containsSub ("watch?v=".toList) r with
        | false => rfl
        | true =>
          rw [containsSub, hc, Bool.or_true] at h
          exact Bool.noConfusion h
      rw [splitMarkerF_cons_not_pref f c r h1, ih h2 f]
      rfl

theorem splitMarkerF_singleton (fuel : Nat) :
    ∀ (s h0 : List Char), s.length ≤ fuel → splitMarkerF fuel s = [h0] →
      containsSub ("watch?v=".toList) s = false := by
  induction fuel with
  | zero =>
    intro s h0 hlen _
    have hs : s = [] := List.eq_nil_of_length_eq_zero (Nat.le_zero.mp hlen)
    subst hs
    rfl
  | succ f ih =>
    intro s h0 hlen heq
    cases s with
    | nil => rfl
    | cons c r =>
      by_cases hp : isPref ("watch?v=".toList) (c :: r) = true
      · obtain ⟨t, hct⟩ := isPref_exists _ _ hp
        rw [hct, splitMarkerF_marker f t] at heq
        injection heq with h1 h2
        exact absurd h2 (splitMarkerF_ne_nil f t)
      · have hp' : isPref ("watch?v=".toList) (c :: r) = false := by
          cases h2 : isPref ("watch?v=".toList) (c :: r) with
          | false => rfl
          | true => exact absurd h2 hp
        rw [splitMarkerF_cons_not_pref f c r hp'] at heq
        injection heq with h1 h2
        rcases hL : splitMarkerF f r with _ | ⟨x, t0⟩
        · exact absurd hL (splitMarkerF_ne_nil f r)
        · rw [hL] at h2
          simp only [List.tail_cons] at h2
          subst h2
          have hrlen : r.length ≤ f := by
            simp only [List.length_cons] at hlen
            omega
          have hcr := ih r x hrlen hL
          show (isPref ("watch?v=".toList) (c :: r) ||
            containsSub ("watch?v=".toList) r) = false
          rw [hp', hcr]
          rfl

theorem afterLast_marker_append (t : List Char) :
    afterLast ("watch?v=".toList) ("watch?v=".toList ++ t) =
      some ((afterLast ("watch?v=".toList) t).getD t) := by
  have hskip := afterLast_marker_tail t
  show afterLast ("watch?v=".toList)
    ('w' :: ("atch?v=".toList ++ t)) = _
  cases hA : afterLast ("watch?v=".toList) t with
  | some u =>
    conv_lhs => unfold afterLast
    rw [hskip, hA]
    rfl
  | none =>
    conv_lhs => unfold afterLast
    rw [hskip, hA,
      if_pos (show isPref ("watch?v=".toList)
        ('w' :: ("atch?v=".toList ++ t)) = true from
        isPref_self_append ("watch?v=".toList) t)]
    rfl

theorem splitMarkerF_getLastD :
    ∀ (fuel : Nat) (s : List Char), s.length ≤ fuel →
      (splitMarkerF fuel s).getLastD [] =
        (afterLast ("watch?v=".toList) s).getD s := by
  intro fuel
  induction fuel with
  | zero =>
    intro s hlen
    have hs : s = [] := List.eq_nil_of_length_eq_zero (Nat.le_zero.mp hlen)
    subst hs
    rfl
  | succ f ih =>
    intro s hlen
    cases s with
    | nil => rfl
    | cons c r =>
      by_cases hp : isPref ("watch?v=".toList) (c :: r) = true
      · obtain ⟨t, hct⟩ := isPref_exists _ _ hp
        rw [hct, splitMarkerF_marker f t]
        have hlt : t.length ≤ f := by
          rw [hct] at hlen
          rw [show ("watch?v=".toList ++ t).length = 8 + t.length from by
            rw [List.length_append, show ("watch?v=".toList).length = 8 from
              rfl]] at hlen
          omega
        have hgl : (([] : List Char) :: splitMarkerF f t).getLastD [] =
            (splitMarkerF f t).getLastD [] := by
          rcases hL : splitMarkerF f t with _ | ⟨x, t0⟩
          · exact absurd hL (splitMarkerF_ne_nil f t)
          · rw [List.getLastD_eq_getLast?, List.getLastD_eq_getLast?,
              List.getLast?_cons_cons]
        rw [hgl, ih t hlt, afterLast_marker_append t]
        rfl
      · have hp' : isPref ("watch?v=".toList) (c :: r) = false := by
          cases hx : isPref ("watch?v=".toList) (c :: r) with
          | false => rfl
          | true => exact absurd hx hp
        have hrlen : r.length ≤ f := by
          simp only [List.length_cons] at hlen
          omega
        rw [splitMarkerF_cons_not_pref f c r hp',
          afterLast_cons_not_pref _ c r hp']
        have hihr := ih r hrlen
        rcases hL : splitMarkerF f r with _ | ⟨x, t0⟩
        · exact absurd hL (splitMarkerF_ne_nil f r)
        · cases t0 with
          | nil =>
            have hcon := splitMarkerF_singleton f r x hrlen hL
            have hnone := afterLast_none_of_not_contains ("watch?v=".toList) r
              (by decide) hcon
            rw [hnone]
            rw [hL, hnone] at hihr
            have hx : x = r := by simpa using hihr
            subst hx
            simp
          | cons b t1 =>
            have hstep : ((c :: (x :: b :: t1).headD []) ::
                (x :: b :: t1).tail).getLastD [] =
                (x :: b :: t1).getLastD [] := by
              simp only [List.headD_cons, List.tail_cons]
              rw [List.getLastD_eq_getLast?, List.getLastD_eq_getLast?,
                List.getLast?_cons_cons, List.getLast?_cons_cons]
            rw [hstep, ← hL, hihr]
            cases hA : afterLast ("watch?v=".toList) r with
            | some u => rfl
            | none =>
              have hcon : containsSub ("watch?v=".toList) r = false := by
                cases hcc : containsSub ("watch?v=".toList) r with
                | false => rfl
                | true =>
                  have hs := containsSub_afterLast_isSome _ _ hcc
                  rw [hA] at hs
                  exact Bool.noConfusion hs
              have heq := splitMarkerF_of_not_contains r hcon f
              rw [hL] at heq
              injection heq with e1 e2
              exact List.noConfusion e2

theorem headD_splitSep (sep : Char) (x : List Char) :
    (splitSep sep x).headD [] = x.takeWhile (fun c => !(c == sep)) := by
  induction x with
  | nil => rfl
  | cons c r ih =>
    by_cases hc : c = sep
    · subst hc
      have hsp : splitSep c (c :: r) = [] :: splitSep c r := by
        conv_lhs => unfold splitSep
        simp
      rw [hsp, List.takeWhile_cons]
      simp
    · rw [splitSep_cons_of_ne sep c r hc, List.takeWhile_cons,
        if_pos (by simp [hc])]
      rw [List.headD_cons, ih]

theorem getLastD_splitSep (sep : Char) (y : List Char) :
    (splitSep sep y).getLastD [] =
      (y.reverse.takeWhile (fun c => !(c == sep))).reverse := by
  have h1 := headD_splitSep sep y.reverse
  rw [splitSep_reverse sep y] at h1
  rcases hL : splitSep sep y with _ | ⟨x, t0⟩
  · exact absurd hL (splitSep_ne_nil sep y)
  · rw [hL] at h1
    have h2 : ((List.map List.reverse (x :: t0)).reverse).headD [] =
        ((x :: t0).getLastD []).reverse := by
      rw [List.headD_eq_head?, List.head?_reverse, List.getLast?_map,
        List.getLastD_eq_getLast?]
      rcases hG : (x :: t0).getLast? with _ | g
      · exact absurd hG (by simp)
      · rfl
    rw [h2] at h1
    rw [← h1, List.reverse_reverse]

/-- C9 (amended): the video identifier is resolved exactly as the claim
states except that, when the marker occurs several times, the identifier is
the substring after the last occurrence of `watch?v=` (Python
`split("watch?v=")[-1]`), up to but excluding the next `&`; otherwise
trailing `/` characters are stripped and the final path segment taken. -/
theorem resolve_video_id_amended (url : List Char) :
    yt_resolve_video_id url = spec_resolve_last url := by
  by_cases hc : containsSub ("watch?v=".toList) url = true
  · have hsome := containsSub_afterLast_isSome _ _ hc
    rcases hA : afterLast ("watch?v=".toList) url with _ | suf
    · rw [hA] at hsome
      exact Bool.noConfusion hsome
    · have h1 : yt_resolve_video_id url =
          (splitSep '&' ((splitMarker url).getLastD [])).headD [] := by
        unfold yt_resolve_video_id
        rw [if_pos hc]
      have h2 : spec_resolve_last url =
          suf.takeWhile (fun c => !(c == '&')) := by
        unfold spec_resolve_last
        rw [hA]
      rw [h1, h2, headD_splitSep '&' _,
        show (splitMarker url).getLastD [] =
          (afterLast ("watch?v=".toList) url).getD url from
          splitMarkerF_getLastD url.length url (Nat.le_refl _),
        hA]
      rfl
  · have hcf : containsSub ("watch?v=".toList) url = false := by
      cases hx : containsSub ("watch?v=".toList) url with
      | false => rfl
      | true => exact absurd hx hc
    have hA := afterLast_none_of_not_contains ("watch?v=".toList) url
      (by decide) hcf
    have h1 : yt_resolve_video_id url =
        (splitSep '/' (rstripSlash url)).getLastD [] := by
      unfold yt_resolve_video_id
      rw [if_neg hc]
    have h2 : spec_resolve_last url =
        ((rstripSlash url).reverse.takeWhile (fun c => !(c == '/'))).reverse := by
      unfold spec_resolve_last
      rw [hA]
    rw [h1, h2]
    exact getLastD_splitSep '/' (rstripSlash url)

theorem char_toNat_ofNat (m : Nat) (h : m.isValidChar) :
    (Char.ofNat m).toNat = m := by
  unfold Char.ofNat
  rw [dif_pos h]
  rfl

theorem beq_false_of_toNat_ne (x d : Char) (h : x.toNat ≠ d.toNat) :
    (x == d) = false := by
  apply beq_eq_false_iff_ne.mpr
  intro he
  exact h (congrArg Char.toNat he)

theorem asciiUpper_not_ws (c : Char) (hns : isPySpace c = false) :
    isPySpace (asciiUpper c) = false := by
  unfold asciiUpper
  split
  case isTrue h =>
    simp only [Bool.and_eq_true, decide_eq_true_eq] at h
    obtain ⟨h1, h2⟩ := h
    rw [Char.le_def] at h1 h2
    have hn1 : 97 ≤ c.toNat := h1
    have hn2 : c.toNat ≤ 122 := h2
    have hv : (c.toNat - 32).isValidChar := Or.inl (by omega)
    have ht : (Char.ofNat (c.toNat - 32)).toNat = c.toNat - 32 :=
      char_toNat_ofNat _ hv
    unfold isPySpace
    rw [beq_false_of_toNat_ne _ _
        (by rw [ht, show (' ').toNat = 32 from rfl]; omega),
      beq_false_of_toNat_ne _ _
        (by rw [ht, show ('\t').toNat = 9 from rfl]; omega),
      beq_false_of_toNat_ne _ _
        (by rw [ht, show ('\n').toNat = 10 from rfl]; omega),
      beq_false_of_toNat_ne _ _
        (by rw [ht, show ('\r').toNat = 13 from rfl]; omega),
      beq_false_of_toNat_ne _ _
        (by rw [ht, show ('\x0b').toNat = 11 from rfl]; omega),
      beq_false_of_toNat_ne _ _
        (by rw [ht, show ('\x0c').toNat = 12 from rfl]; omega)]
    rfl
  case isFalse => exact hns

theorem alnum_not_ws (c : Char) (h : isAsciiAlnum c = true) :
    isPySpace c = false := by
  simp only [isAsciiAlnum, Bool.or_eq_true, Bool.and_eq_true,
    decide_eq_true_eq, Char.le_def] at h
  have hn : (65 ≤ c.toNat ∧ c.toNat ≤ 90) ∨ (97 ≤ c.toNat ∧ c.toNat ≤ 122) ∨
      (48 ≤ c.toNat ∧ c.toNat ≤ 57) := by
    rcases h with (⟨h1, h2⟩ | ⟨h1, h2⟩) | ⟨h1, h2⟩
    · exact Or.inl ⟨h1, h2⟩
    · exact Or.inr (Or.inl ⟨h1, h2⟩)
    · exact Or.inr (Or.inr ⟨h1, h2⟩)
  unfold isPySpace
  rw [beq_false_of_toNat_ne _ _
      (by rw [show (' ').toNat = 32 from rfl]; omega),
    beq_false_of_toNat_ne _ _
      (by rw [show ('\t').toNat = 9 from rfl]; omega),
    beq_false_of_toNat_ne _ _
      (by rw [show ('\n').toNat = 10 from rfl]; omega),
    beq_false_of_toNat_ne _ _
      (by rw [show ('\r').toNat = 13 from rfl]; omega),
    beq_false_of_toNat_ne _ _
      (by rw [show ('\x0b').toNat = 11 from rfl]; omega),
    beq_false_of_toNat_ne _ _
      (by rw [show ('\x0c').toNat = 12 from rfl]; omega)]
  rfl

theorem mem_dropWhile_of_not_ws (c : Char) (s : List Char) (hm : c ∈ s)
    (hc : isPySpace c = false) : c ∈ s.dropWhile isPySpace := by
  induction s with
  | nil => exact absurd hm (List.not_mem_nil c)
  | cons a r ih =>
    by_cases hwa : isPySpace a
    · rw [List.dropWhile_cons, if_pos hwa]
      rcases List.mem_cons.mp hm with rfl | hm2
      · rw [hwa] at hc
        exact Bool.noConfusion hc
      · exact ih hm2
    · rw [List.dropWhile_cons, if_neg hwa]
      exact hm

theorem mem_pyStrip_of_not_ws (c : Char) (s : List Char) (hm : c ∈ s)
    (hc : isPySpace c = false) : c ∈ pyStrip s := by
  unfold pyStrip stripLeft stripRight
  have h1 : c ∈ s.dropWhile isPySpace := mem_dropWhile_of_not_ws c s hm hc
  have h2 : c ∈ (s.dropWhile isPySpace).reverse := List.mem_reverse.mpr h1
  have h3 := mem_dropWhile_of_not_ws c _ h2 hc
  exact List.mem_reverse.mpr h3

theorem mem_of_mem_pyStrip (c : Char) (s : List Char) (hm : c ∈ pyStrip s) :
    c ∈ s := by
  unfold pyStrip stripLeft stripRight at hm
  have h1 := List.mem_reverse.mp hm
  have h2 := (List.dropWhile_sublist isPySpace).subset h1
  have h3 := List.mem_reverse.mp h2
  exact (List.dropWhile_sublist isPySpace).subset h3

theorem dropWhile_head_false (p : Char → Bool) (l : List Char) (c : Char)
    (r : List Char) (h : l.dropWhile p = c :: r) : p c = false := by
  induction l with
  | nil => exact List.noConfusion h
  | cons a t ih =>
    by_cases hpa : p a
    · rw [List.dropWhile_cons, if_pos hpa] at h
      exact ih h
    · rw [List.dropWhile_cons, if_neg hpa] at h
      injection h with h1 h2
      subst h1
      cases hx : p a with
      | false => rfl
      | true => exact absurd hx hpa

theorem stripRight_decomp (u : List Char) : ∃ b, u = stripRight u ++ b := by
  refine ⟨(u.reverse.takeWhile isPySpace).reverse, ?_⟩
  unfold stripRight
  conv_lhs => rw [show u = u.reverse.reverse from (List.reverse_reverse u).symm,
    show u.reverse = u.reverse.takeWhile isPySpace ++
      u.reverse.dropWhile isPySpace from
      (List.takeWhile_append_dropWhile _ _).symm]
  rw [List.reverse_append]

theorem pyStrip_head_not_ws (y : List Char) (c : Char) (rest : List Char)
    (h : pyStrip y = c :: rest) : isPySpace c = false := by
  obtain ⟨b, hb⟩ := stripRight_decomp (stripLeft y)
  have hsl : stripLeft y = (c :: rest) ++ b := by
    rw [← h]
    exact hb
  unfold stripLeft at hsl
  exact dropWhile_head_false isPySpace y c (rest ++ b) (by simpa using hsl)

theorem pyStrip_has_nonws (y : List Char) (h : pyStrip y ≠ []) :
    ∃ c ∈ pyStrip y, isPySpace c = false := by
  rcases hs : pyStrip y with _ | ⟨c, rest⟩
  · exact absurd hs h
  · exact ⟨c, List.mem_cons_self _ _, pyStrip_head_not_ws y c rest hs⟩

theorem mem_collapseWs (c : Char) : ∀ (s : List Char), c ∈ s →
    isPySpace c = false → c ∈ collapseWs s := by
  intro s
  induction s with
  | nil => intro h _; exact absurd h (List.not_mem_nil c)
  | cons a r ih =>
    intro hmem hc
    cases r with
    | nil =>
      rcases List.mem_cons.mp hmem with rfl | hm2
      · unfold collapseWs
        rw [if_neg (by rw [hc]; exact Bool.noConfusion)]
        exact List.mem_cons_self _ _
      · exact absurd hm2 (List.not_mem_nil c)
    | cons d r2 =>
      rcases List.mem_cons.mp hmem with rfl | hm2
      · unfold collapseWs
        rw [if_neg (by rw [hc]; exact Bool.noConfusion)]
        exact List.mem_cons_self _ _
      · have hrec := ih hm2 hc
        unfold collapseWs
        by_cases hwa : isPySpace a
        · rw [if_pos hwa]
          by_cases hwd : isPySpace d
          · rw [if_pos hwd]
            exact hrec
          · rw [if_neg hwd]
            exact List.mem_cons_of_mem _ hrec
        · rw [if_neg hwa]
          exact List.mem_cons_of_mem _ hrec

theorem collapseWs_chars (c : Char) : ∀ (s : List Char), c ∈ collapseWs s →
    c = ' ' ∨ isPySpace c = false := by
  intro s
  induction s with
  | nil => intro h; exact absurd h (List.not_mem_nil c)
  | cons a r ih =>
    intro hmem
    cases r with
    | nil =>
      unfold collapseWs at hmem
      by_cases hwa : isPySpace a
      · rw [if_pos hwa] at hmem
        rcases List.mem_cons.mp hmem with rfl | hm2
        · exact Or.inl rfl
        · exact absurd hm2 (List.not_mem_nil c)
      · rw [if_neg hwa] at hmem
        rcases List.mem_cons.mp hmem with rfl | hm2
        · exact Or.inr (by cases hx : isPySpace c with
            | false => rfl
            | true => exact absurd hx hwa)
        · exact absurd hm2 (List.not_mem_nil c)
    | cons d r2 =>
      unfold collapseWs at hmem
      by_cases hwa : isPySpace a
      · rw [if_pos hwa] at hmem
        by_cases hwd : isPySpace d
        · rw [if_pos hwd] at hmem
          exact ih hmem
        · rw [if_neg hwd] at hmem
          rcases List.mem_cons.mp hmem with rfl | hm2
          · exact Or.inl rfl
          · exact ih hm2
      · rw [if_neg hwa] at hmem
        rcases List.mem_cons.mp hmem with rfl | hm2
        · exact Or.inr (by cases hx : isPySpace c with
            | false => rfl
            | true => exact absurd hx hwa)
        · exact ih hm2

theorem normWs_ne_nil (s : List Char) (h : ∃ c ∈ s, isPySpace c = false) :
    normWs s ≠ [] := by
  obtain ⟨c, hm, hc⟩ := h
  have h1 : c ∈ collapseWs s := mem_collapseWs c s hm hc
  have h2 : c ∈ pyStrip (collapseWs s) := mem_pyStrip_of_not_ws c _ h1 hc
  intro hnil
  have hnil2 : pyStrip (collapseWs s) = [] := hnil
  rw [hnil2] at h2
  exact absurd h2 (List.not_mem_nil c)

theorem nl_not_mem_normWs (s : List Char) : '\n' ∉ normWs s := by
  intro hmem
  have h1 : '\n' ∈ collapseWs s :=
    mem_of_mem_pyStrip _ _ (by simpa [normWs] using hmem)
  rcases collapseWs_chars '\n' s h1 with h2 | h2
  · simp at h2
  · simp [isPySpace] at h2

theorem sentSplitF_ne_nil : ∀ (fuel : Nat) (prev : Option Char)
    (t : List Char), sentSplitF fuel prev t ≠ [] := by
  intro fuel
  induction fuel with
  | zero => intro prev t; simp [sentSplitF]
  | succ f ih =>
    intro prev t
    cases t with
    | nil => simp [sentSplitF]
    | cons c r =>
      unfold sentSplitF
      split
      · simp
      · split <;> simp

theorem sentSplitF_piece_nonws : ∀ (fuel : Nat) (prev : Option Char)
    (t : List Char), (∃ c ∈ t, isPySpace c = false) →
      ∃ p ∈ sentSplitF fuel prev t, ∃ c ∈ p, isPySpace c = false := by
  intro fuel
  induction fuel with
  | zero =>
    intro prev t h
    exact ⟨t, by simp [sentSplitF], h⟩
  | succ f ih =>
    intro prev t h
    obtain ⟨c0, hm, hc0⟩ := h
    cases t with
    | nil => exact absurd hm (List.not_mem_nil c0)
    | cons c r =>
      unfold sentSplitF
      by_cases hbr : isPySpace c && prev.elim false isSentEnd
      · rw [if_pos hbr]
        have hcr : c0 ∈ r := by
          rcases List.mem_cons.mp hm with rfl | hm2
          · simp only [Bool.and_eq_true] at hbr
            rw [hbr.1] at hc0
            exact Bool.noConfusion hc0
          · exact hm2
        have hdw : c0 ∈ r.dropWhile isPySpace :=
          mem_dropWhile_of_not_ws c0 r hcr hc0
        obtain ⟨p, hp, hw⟩ := ih (some ' ') (r.dropWhile isPySpace)
          ⟨c0, hdw, hc0⟩
        exact ⟨p, List.mem_cons_of_mem _ hp, hw⟩
      · rw [if_neg hbr]
        rcases hL : sentSplitF f (some c) r with _ | ⟨h0, t0⟩
        · exact absurd hL (sentSplitF_ne_nil f (some c) r)
        · rcases List.mem_cons.mp hm with rfl | hm2
          · exact ⟨c0 :: h0, List.mem_cons_self _ _,
              c0, List.mem_cons_self _ _, hc0⟩
          · obtain ⟨p, hp, hw⟩ := ih (some c) r ⟨c0, hm2, hc0⟩
            rw [hL] at hp
            rcases List.mem_cons.mp hp with rfl | hp2
            · exact ⟨c :: p, List.mem_cons_self _ _,
                (by obtain ⟨d, hd, hdns⟩ := hw
                    exact ⟨d, List.mem_cons_of_mem _ hd, hdns⟩)⟩
            · exact ⟨p, List.mem_cons_of_mem _ hp2, hw⟩

theorem sentCapitalize_has_nonws (s : List Char)
    (h : ∃ c ∈ s, isPySpace c = false) :
    ∃ c ∈ sentCapitalize s, isPySpace c = false := by
  cases hidx : firstAlnumIdx s with
  | none =>
    have hid : sentCapitalize s = s := by simp [sentCapitalize, hidx]
    rw [hid]
    exact h
  | some i =>
    obtain ⟨c0, rest, hd, hc0⟩ := firstAlnumIdx_drop s i hidx
    have hcap : sentCapitalize s = s.take i ++ asciiUpper c0 :: rest := by
      simp [sentCapitalize, hidx, hd]
    rw [hcap]
    exact ⟨asciiUpper c0,
      List.mem_append_right _ (List.mem_cons_self _ _),
      asciiUpper_not_ws c0 (alnum_not_ws c0 hc0)⟩

theorem mem_intercalate_head (x : List Char) (xs : List (List Char))
    (c : Char) (h : c ∈ x) : c ∈ List.intercalate [' '] (x :: xs) := by
  cases xs with
  | nil => simpa [List.intercalate] using h
  | cons y t =>
    rw [show List.intercalate [' '] (x :: y :: t) =
      x ++ ' ' :: List.intercalate [' '] (y :: t) from by
        simp [List.intercalate, List.intersperse]]
    exact List.mem_append_left _ h

theorem mem_punctFix1F (c : Char) (hc : isPySpace c = false) :
    ∀ (fuel : Nat) (s : List Char), c ∈ s → c ∈ punctFix1F fuel s := by
  intro fuel
  induction fuel with
  | zero => intro s h; exact h
  | succ f ih =>
    intro s hmem
    cases s with
    | nil => exact hmem
    | cons a r =>
      by_cases hwa : isPySpace a = true
      · have hcr : c ∈ (a :: r).dropWhile isPySpace :=
          mem_dropWhile_of_not_ws c (a :: r) hmem hc
        rcases hD : (a :: r).dropWhile isPySpace with _ | ⟨q, r'⟩
        · rw [hD] at hcr
          exact absurd hcr (List.not_mem_nil c)
        · rw [hD] at hcr
          by_cases hq : isPunctCls q = true
          · have hres : punctFix1F (f + 1) (a :: r) = q :: punctFix1F f r' := by
              conv_lhs => unfold punctFix1F
              rw [if_pos hwa, hD]
              simp [hq]
            rw [hres]
            rcases List.mem_cons.mp hcr with rfl | hm2
            · exact List.mem_cons_self _ _
            · exact List.mem_cons_of_mem _ (ih r' hm2)
          · have hq' : isPunctCls q = false := by
              cases hx : isPunctCls q with
              | false => rfl
              | true => exact absurd hx hq
            have hres : punctFix1F (f + 1) (a :: r) = a :: punctFix1F f r := by
              conv_lhs => unfold punctFix1F
              rw [if_pos hwa, hD]
              simp [hq']
            rw [hres]
            have hm2 : c ∈ r := by
              rcases List.mem_cons.mp hmem with rfl | hm
              · rw [hwa] at hc
                exact Bool.noConfusion hc
              · exact hm
            exact List.mem_cons_of_mem _ (ih r hm2)
      · have hwa' : isPySpace a = false := by
          cases hx : isPySpace a with
          | false => rfl
          | true => exact absurd hx hwa
        have hres : punctFix1F (f + 1) (a :: r) = a :: punctFix1F f r := by
          conv_lhs => unfold punctFix1F
          rw [hwa']
          simp
        rw [hres]
        rcases List.mem_cons.mp hmem with rfl | hm2
        · exact List.mem_cons_self _ _
        · exact List.mem_cons_of_mem _ (ih r hm2)

theorem mem_punctFix2 (c : Char) : ∀ (s : List Char), c ∈ s →
    c ∈ punctFix2 s := by
  suffices H : ∀ (n : Nat) (s : List Char), s.length ≤ n → c ∈ s →
      c ∈ punctFix2 s by
    intro s
    exact H s.length s (Nat.le_refl _)
  intro n
  induction n with
  | zero =>
    intro s hlen hm
    have hnil : s = [] := List.eq_nil_of_length_eq_zero (Nat.le_zero.mp hlen)
    subst hnil
    exact absurd hm (List.not_mem_nil c)
  | succ k ih =>
    intro s hlen hm
    cases s with
    | nil => exact absurd hm (List.not_mem_nil c)
    | cons a t =>
      cases t with
      | nil => simpa [punctFix2] using hm
      | cons d r =>
        have hlen1 : (d :: r).length ≤ k := by
          simp only [List.length_cons] at hlen ⊢
          omega
        have hlen2 : r.length ≤ k := by
          simp only [List.length_cons] at hlen
          omega
        by_cases hcond : (isPunctCls a && !(isPySpace d)) = true
        · have hres : punctFix2 (a :: d :: r) =
              a :: ' ' :: d :: punctFix2 r := by
            conv_lhs => unfold punctFix2
            rw [if_pos hcond]
          rw [hres]
          rcases List.mem_cons.mp hm with rfl | hm2
          · exact List.mem_cons_self _ _
          · rcases List.mem_cons.mp hm2 with rfl | hm3
            · exact List.mem_cons_of_mem _
                (List.mem_cons_of_mem _ (List.mem_cons_self _ _))
            · exact List.mem_cons_of_mem _ (List.mem_cons_of_mem _
                (List.mem_cons_of_mem _ (ih r hlen2 hm3)))
        · have hcond' : (isPunctCls a && !(isPySpace d)) = false := by
            cases hx : (isPunctCls a && !(isPySpace d)) with
            | false => rfl
            | true => exact absurd hx hcond
          have hres : punctFix2 (a :: d :: r) = a :: punctFix2 (d :: r) := by
            conv_lhs => unfold punctFix2
            rw [hcond']
            simp
          rw [hres]
          rcases List.mem_cons.mp hm with rfl | hm2
          · exact List.mem_cons_self _ _
          · exact List.mem_cons_of_mem _ (ih (d :: r) hlen1 hm2)

/-- C7 (amended): in the configuration without NLP models, for every
non-empty segment sequence whose joined, artifact-stripped,
whitespace-normalised text is non-empty, `clean_transcript_nlp` returns a
non-empty string, and that string contains no newline character — so it
cannot contain separate timestamp-arrow or cue-number lines (the output may
be empty when the segments' text is empty or is entirely consumed by
artifact stripping, see the counterexample). -/
theorem clean_nonempty_single_line (segs : List (List Char))
    (h1 : segs ≠ []) (h2 : preClean (CleanSource.segs segs) ≠ []) :
    clean_noModels segs ≠ [] ∧ '\n' ∉ clean_noModels segs := by
  have hre : ∀ (x : List Char),
      restore_punctuation_and_case false (fun _ => Except.error ()) x = x := by
    intro x
    cases x with
    | nil => rfl
    | cons a r => rfl
  have hclean : clean_noModels segs =
      postClean (preClean (CleanSource.segs segs)) := by
    have hstep : clean_transcript_nlp
        (fun s => Except.ok (restore_punctuation_and_case false
          (fun _ => Except.error ()) s)) (CleanSource.segs segs) =
        Except.ok (postClean (restore_punctuation_and_case false
          (fun _ => Except.error ()) (preClean (CleanSource.segs segs)))) := rfl
    unfold clean_noModels
    rw [hstep, hre]
  rw [hclean]
  have hPnonws : ∃ c ∈ preClean (CleanSource.segs segs),
      isPySpace c = false := pyStrip_has_nonws _ h2
  have hseg : sentence_segment_and_capitalize
      (preClean (CleanSource.segs segs)) =
      List.intercalate [' ']
        ((((sentSplit (preClean (CleanSource.segs segs))).map pyStrip).filter
          (fun s => !(s.isEmpty))).map sentCapitalize) := by
    unfold sentence_segment_and_capitalize
    rw [if_neg (by simpa [List.isEmpty_iff] using h2)]
  obtain ⟨p, hp0, cw, hcwm, hcwns⟩ := sentSplitF_piece_nonws
    (preClean (CleanSource.segs segs)).length none
    (preClean (CleanSource.segs segs)) hPnonws
  have hp : p ∈ sentSplit (preClean (CleanSource.segs segs)) := hp0
  have hps_mem : cw ∈ pyStrip p := mem_pyStrip_of_not_ws cw p hcwm hcwns
  have hps_ne : pyStrip p ≠ [] := by
    intro hnil
    rw [hnil] at hps_mem
    exact absurd hps_mem (List.not_mem_nil cw)
  have hmem_sents : pyStrip p ∈
      (((sentSplit (preClean (CleanSource.segs segs))).map pyStrip).filter
        (fun s => !(s.isEmpty))) := by
    rw [List.mem_filter]
    refine ⟨List.mem_map_of_mem pyStrip hp, ?_⟩
    simp [List.isEmpty_iff, hps_ne]
  rcases hs : (((sentSplit (preClean (CleanSource.segs segs))).map
      pyStrip).filter (fun s => !(s.isEmpty))) with _ | ⟨m, ms⟩
  · rw [hs] at hmem_sents
    exact absurd hmem_sents (List.not_mem_nil _)
  · have hm_mem : m ∈ (((sentSplit (preClean (CleanSource.segs segs))).map
        pyStrip).filter (fun s => !(s.isEmpty))) := by
      rw [hs]
      exact List.mem_cons_self _ _
    have hm_ne : m ≠ [] := by
      have hf := (List.mem_filter.mp hm_mem).2
      simpa [List.isEmpty_iff] using hf
    obtain ⟨p', hp'm, hp'⟩ := List.mem_map.mp (List.mem_filter.mp hm_mem).1
    have hm_nonws : ∃ c ∈ m, isPySpace c = false := by
      rw [← hp']
      exact pyStrip_has_nonws p' (by rw [hp']; exact hm_ne)
    have hJ : ∃ c ∈ sentence_segment_and_capitalize
        (preClean (CleanSource.segs segs)), isPySpace c = false := by
      rw [hseg, hs]
      obtain ⟨cj, hcjm, hcjns⟩ := sentCapitalize_has_nonws m hm_nonws
      rw [List.map_cons]
      exact ⟨cj, mem_intercalate_head _ _ _ hcjm, hcjns⟩
    obtain ⟨cf, hcfm, hcfns⟩ := hJ
    have hF1 : cf ∈ punctFix1 (sentence_segment_and_capitalize
        (preClean (CleanSource.segs segs))) :=
      mem_punctFix1F cf hcfns _ _ hcfm
    have hF2 : cf ∈ punctFix2 (punctFix1 (sentence_segment_and_capitalize
        (preClean (CleanSource.segs segs)))) :=
      mem_punctFix2 cf _ hF1
    exact ⟨normWs_ne_nil _ ⟨cf, hF2, hcfns⟩, nl_not_mem_normWs _⟩

/-- Witness for C7 at the single segment `"hello world"`. -/
theorem clean_nonempty_single_line_w :
    (["hello world".toList] : List (List Char)) ≠ [] ∧
    preClean (CleanSource.segs ["hello world".toList]) ≠ [] ∧
    (clean_noModels ["hello world".toList] ≠ [] ∧
      '\n' ∉ clean_noModels ["hello world".toList]) :=
  ⟨by decide, by decide,
    clean_nonempty_single_line ["hello world".toList] (by decide) (by decide)⟩
